import Mathlib

/-!
Verification of the embedded copy-on-write B+tree (`embedded/tbtree/tbtree.go`)
of this repository.  Pure functions of the source are embedded as Lean
functions; the mutable tree is embedded as explicit state passing over a
`TreeState` record (Go's in-place mutations become state updates, and Go's
convention that mutations persist when an error is returned is captured by
`EStateM`).  Machine integers are modelled as `Nat` with explicit masks where
overflow matters.  Components of the repository that are not part of the
provided sources (the page codec, the write buffer, the snapshot reader) are
modelled from the specification; every such definition carries a doc comment
starting with `Modelled from the spec:`.
-/

namespace TBTree

/-! ## Big-endian byte encoding (`encoding/binary`, big endian) -/

/-- Little-endian byte list of `n`, `k` bytes long (helper for `beBytes`). -/
def leBytes : Nat → Nat → List Nat
  | 0, _ => []
  | k + 1, n => (n % 256) :: leBytes k (n / 256)

/-- Big-endian byte list of `n`, `k` bytes long; models
`binary.BigEndian.PutUintN`. -/
def beBytes (k n : Nat) : List Nat :=
  (leBytes k n).reverse

/-- Big-endian read of a byte list; models `binary.BigEndian.UintN`. -/
def beGet (l : List Nat) : Nat :=
  l.foldl (fun acc b => acc * 256 + b) 0

theorem leBytes_length (k n : Nat) : (leBytes k n).length = k := by
  induction k generalizing n with
  | zero => rfl
  | succ k ih => simp [leBytes, ih]

theorem beBytes_length (k n : Nat) : (beBytes k n).length = k := by
  simp [beBytes, leBytes_length]

theorem beGet_append (l : List Nat) (b : Nat) :
    beGet (l ++ [b]) = beGet l * 256 + b := by
  simp [beGet, List.foldl_append]

theorem beGet_beBytes (k n : Nat) : beGet (beBytes k n) = n % 256 ^ k := by
  induction k generalizing n with
  | zero => simp [beBytes, leBytes, beGet, Nat.mod_one]
  | succ k ih =>
    have h : beBytes (k + 1) n = beBytes k (n / 256) ++ [n % 256] := by
      simp [beBytes, leBytes]
    rw [h, beGet_append, ih]
    rw [pow_succ]
    have hm : n % (256 ^ k * 256) = n % 256 + 256 * (n / 256 % 256 ^ k) := by
      rw [mul_comm (256 ^ k) 256]
      exact Nat.mod_mul
    omega

theorem beGet_beBytes_of_lt {k n : Nat} (h : n < 256 ^ k) :
    beGet (beBytes k n) = n := by
  rw [beGet_beBytes, Nat.mod_eq_of_lt h]

/-! ## CRC32-Castagnoli (`hash/crc32` with the Castagnoli table) -/

/-- One bit step of the reflected CRC32-C computation. -/
def crc32cBitStep (crc : Nat) : Nat :=
  if crc % 2 = 1 then (crc / 2) ^^^ 0x82F63B78 else crc / 2

/-- Applies a function `n` times (used to fold the 8 bit steps of a CRC
byte). -/
def iterN (f : Nat → Nat) : Nat → Nat → Nat
  | 0, x => x
  | n + 1, x => iterN f n (f x)

/-- Folds one byte into the running CRC32-C value. -/
def crc32cByteStep (crc b : Nat) : Nat :=
  iterN crc32cBitStep 8 ((crc ^^^ b) % 2 ^ 32)

/-- CRC32-Castagnoli of a byte list; models `computeChecksum` at
tbtree.go:1330-1334 (`crc32.New(crc32.MakeTable(crc32.Castagnoli))`). -/
def computeChecksum (data : List Nat) : Nat :=
  (data.foldl crc32cByteStep 0xFFFFFFFF) ^^^ 0xFFFFFFFF

/-! ## Commit entries (tbtree.go:1254-1328) -/

/-- Size in bytes of the serialized checksum field. -/
def ChecksumSize : Nat := 4

/-- Modelled from the spec: the commit magic is a 2-byte marker
(`magic:u16`); its size constant lives in a source file that is not part of
the provided sources. -/
def CommitMagicSize : Nat := 2

/-- Modelled from the spec: the concrete 16-bit magic value is defined in a
source file that is not part of the provided sources; the round-trip
behaviour of commit entries does not depend on its value (readCommitEntry
validates only the checksum). -/
def CommitMagic : Nat := 0xB7EE

/-- Models `CommitEntrySize = 40 + CommitMagicSize` (tbtree.go:1254). -/
def CommitEntrySize : Nat := 40 + CommitMagicSize

/-- The commit entry record; field names follow the source. -/
structure CommitEntry where
  Checksum : Nat
  Ts : Nat
  HLogLastEntryOff : Nat
  HLogLastEntryChecksum : Nat
  TotalPages : Nat
  StalePages : Nat
  IndexedEntryCount : Nat
  deriving DecidableEq

/-- Field bounds of a commit entry as machine integers: `ts:u64`,
`hLogLastEntryOff:u64`, `hLogLastEntryChecksum:u32`, `totalPages:u64`,
`stalePages:u32`, `indexedEntryCount:u32`. -/
def CommitEntry.WF (e : CommitEntry) : Prop :=
  e.Ts < 2 ^ 64 ∧ e.HLogLastEntryOff < 2 ^ 64 ∧
  e.HLogLastEntryChecksum < 2 ^ 32 ∧ e.TotalPages < 2 ^ 64 ∧
  e.StalePages < 2 ^ 32 ∧ e.IndexedEntryCount < 2 ^ 32

instance (e : CommitEntry) : Decidable e.WF := by
  unfold CommitEntry.WF; infer_instance

/-- The 38 bytes that follow the checksum field, in source order
(tbtree.go:1273-1291): ts, hLogLastEntryOff, hLogLastEntryChecksum,
totalPages, stalePages, indexedEntryCount, magic. -/
def commitEntryTail (e : CommitEntry) : List Nat :=
  beBytes 8 e.Ts ++ beBytes 8 e.HLogLastEntryOff ++
  beBytes 4 e.HLogLastEntryChecksum ++ beBytes 8 e.TotalPages ++
  beBytes 4 e.StalePages ++ beBytes 4 e.IndexedEntryCount ++
  beBytes 2 CommitMagic

/-- Models `putCommitEntry` (tbtree.go:1267-1295): the fields are written
big-endian after a 4-byte placeholder, then the CRC32-C of everything after
the checksum slot is stored in the first 4 bytes. -/
def putCommitEntry (e : CommitEntry) : List Nat :=
  beBytes 4 (computeChecksum (commitEntryTail e)) ++ commitEntryTail e

/-- Error kinds of the tree, mirroring the `Err*` values of the source. -/
inductive TreeErr where
  | invalidTimestamp
  | treeLocked
  | writeBufferFull
  | pageFull
  | keyNotFound
  | keyRevisionNotFound
  | noSnapshotAvailable
  | staleRootTimestamp
  | corruptedEntry
  | corruptedTreeLog
  | corruptedPage
  | invalidPageID
  | shortRead
  | noValidPageFound
  | outOfFuel
  | assertFailed
  | nonMemPageFlush
  deriving DecidableEq

/-- Models `readCommitEntry` (tbtree.go:1297-1328): asserts the buffer
length, reads the big-endian fields at their offsets and validates the
CRC32-C of the bytes after the checksum. -/
def readCommitEntry (buf : List Nat) : Except TreeErr CommitEntry :=
  if buf.length ≠ CommitEntrySize then .error .assertFailed
  else
    let e : CommitEntry :=
      { Checksum := beGet (buf.take 4)
        Ts := beGet ((buf.drop 4).take 8)
        HLogLastEntryOff := beGet ((buf.drop 12).take 8)
        HLogLastEntryChecksum := beGet ((buf.drop 20).take 4)
        TotalPages := beGet ((buf.drop 24).take 8)
        StalePages := beGet ((buf.drop 32).take 4)
        IndexedEntryCount := beGet ((buf.drop 36).take 4) }
    if computeChecksum (buf.drop ChecksumSize) ≠ e.Checksum then
      .error .corruptedEntry
    else .ok e

theorem take_append_len (xs ys : List Nat) (n : Nat) (h : xs.length = n) :
    (xs ++ ys).take n = xs := by
  subst h; simp

theorem drop_append_len (xs ys : List Nat) (n : Nat) (h : xs.length = n) :
    (xs ++ ys).drop n = ys := by
  subst h; simp

theorem crc32cBitStep_lt {x : Nat} (h : x < 2 ^ 32) :
    crc32cBitStep x < 2 ^ 32 := by
  unfold crc32cBitStep
  split
  · exact Nat.xor_lt_two_pow (by omega) (by norm_num)
  · omega

theorem iterN_bitStep_lt (n : Nat) {x : Nat} (h : x < 2 ^ 32) :
    iterN crc32cBitStep n x < 2 ^ 32 := by
  induction n generalizing x with
  | zero => exact h
  | succ n ih => exact ih (crc32cBitStep_lt h)

theorem crc32cByteStep_lt (crc b : Nat) : crc32cByteStep crc b < 2 ^ 32 := by
  unfold crc32cByteStep
  have h : (crc ^^^ b) % 2 ^ 32 < 2 ^ 32 := Nat.mod_lt _ (by norm_num)
  exact iterN_bitStep_lt 8 h

theorem foldl_byteStep_lt (data : List Nat) {c : Nat} (h : c < 2 ^ 32) :
    data.foldl crc32cByteStep c < 2 ^ 32 := by
  induction data generalizing c with
  | nil => exact h
  | cons b rest ih => exact ih (crc32cByteStep_lt c b)

theorem computeChecksum_lt (data : List Nat) :
    computeChecksum data < 2 ^ 32 := by
  unfold computeChecksum
  exact Nat.xor_lt_two_pow (foldl_byteStep_lt data (by norm_num)) (by norm_num)

theorem commitEntryTail_length (e : CommitEntry) :
    (commitEntryTail e).length = 38 := by
  simp [commitEntryTail, beBytes_length]

theorem putCommitEntry_length (e : CommitEntry) :
    (putCommitEntry e).length = CommitEntrySize := by
  simp [putCommitEntry, beBytes_length, commitEntryTail_length,
    CommitEntrySize, CommitMagicSize]

theorem drop_append_add (xs ys : List Nat) (k j : Nat) (hx : xs.length = k) :
    (xs ++ ys).drop (k + j) = ys.drop j := by
  subst hx
  rw [List.drop_append_eq_append_drop]
  simp

theorem readCommitEntry_putCommitEntry (e : CommitEntry) (h : e.WF) :
    readCommitEntry (putCommitEntry e) =
      .ok { e with Checksum := computeChecksum (commitEntryTail e) } := by
  obtain ⟨hTs, hHOff, hHCk, hTP, hSP, hIEC⟩ := h
  have h64 : (256 : Nat) ^ 8 = 2 ^ 64 := by norm_num
  have h32 : (256 : Nat) ^ 4 = 2 ^ 32 := by norm_num
  have hck : computeChecksum (commitEntryTail e) < 2 ^ 32 :=
    computeChecksum_lt (commitEntryTail e)
  have hbuf : putCommitEntry e =
      beBytes 4 (computeChecksum (commitEntryTail e)) ++
        (beBytes 8 e.Ts ++ (beBytes 8 e.HLogLastEntryOff ++
        (beBytes 4 e.HLogLastEntryChecksum ++ (beBytes 8 e.TotalPages ++
        (beBytes 4 e.StalePages ++ (beBytes 4 e.IndexedEntryCount ++
        beBytes 2 CommitMagic)))))) := by
    simp [putCommitEntry, commitEntryTail, List.append_assoc]
  have d4 : (putCommitEntry e).drop 4 =
      beBytes 8 e.Ts ++ (beBytes 8 e.HLogLastEntryOff ++
        (beBytes 4 e.HLogLastEntryChecksum ++ (beBytes 8 e.TotalPages ++
        (beBytes 4 e.StalePages ++ (beBytes 4 e.IndexedEntryCount ++
        beBytes 2 CommitMagic))))) := by
    rw [hbuf]; exact drop_append_len _ _ 4 (beBytes_length 4 _)
  have d12 : (putCommitEntry e).drop 12 =
      beBytes 8 e.HLogLastEntryOff ++
        (beBytes 4 e.HLogLastEntryChecksum ++ (beBytes 8 e.TotalPages ++
        (beBytes 4 e.StalePages ++ (beBytes 4 e.IndexedEntryCount ++
        beBytes 2 CommitMagic)))) := by
    have : (12 : Nat) = 4 + 8 := by norm_num
    rw [this, hbuf, drop_append_add _ _ 4 8 (beBytes_length 4 _)]
    exact drop_append_len _ _ 8 (beBytes_length 8 _)
  have d20 : (putCommitEntry e).drop 20 =
      beBytes 4 e.HLogLastEntryChecksum ++ (beBytes 8 e.TotalPages ++
        (beBytes 4 e.StalePages ++ (beBytes 4 e.IndexedEntryCount ++
        beBytes 2 CommitMagic))) := by
    have : (20 : Nat) = 4 + 16 := by norm_num
    rw [this, hbuf, drop_append_add _ _ 4 16 (beBytes_length 4 _)]
    have : (16 : Nat) = 8 + 8 := by norm_num
    rw [this, drop_append_add _ _ 8 8 (beBytes_length 8 _)]
    exact drop_append_len _ _ 8 (beBytes_length 8 _)
  have d24 : (putCommitEntry e).drop 24 =
      beBytes 8 e.TotalPages ++
        (beBytes 4 e.StalePages ++ (beBytes 4 e.IndexedEntryCount ++
        beBytes 2 CommitMagic)) := by
    have : (24 : Nat) = 20 + 4 := by norm_num
    rw [this, ← List.drop_drop, d20]
    exact drop_append_len _ _ 4 (beBytes_length 4 _)
  have d32 : (putCommitEntry e).drop 32 =
      beBytes 4 e.StalePages ++ (beBytes 4 e.IndexedEntryCount ++
        beBytes 2 CommitMagic) := by
    have : (32 : Nat) = 24 + 8 := by norm_num
    rw [this, ← List.drop_drop, d24]
    exact drop_append_len _ _ 8 (beBytes_length 8 _)
  have d36 : (putCommitEntry e).drop 36 =
      beBytes 4 e.IndexedEntryCount ++ beBytes 2 CommitMagic := by
    have : (36 : Nat) = 32 + 4 := by norm_num
    rw [this, ← List.drop_drop, d32]
    exact drop_append_len _ _ 4 (beBytes_length 4 _)
  have t0 : (putCommitEntry e).take 4 =
      beBytes 4 (computeChecksum (commitEntryTail e)) := by
    rw [hbuf]; exact take_append_len _ _ 4 (beBytes_length 4 _)
  have hdtail : (putCommitEntry e).drop ChecksumSize = commitEntryTail e := by
    show (putCommitEntry e).drop 4 = commitEntryTail e
    rw [d4]; simp [commitEntryTail, List.append_assoc]
  unfold readCommitEntry
  rw [if_neg (by rw [putCommitEntry_length]; exact fun hc => hc rfl)]
  rw [hdtail, t0, d4, d12, d20, d24, d32, d36]
  rw [take_append_len _ _ 8 (beBytes_length 8 _),
    take_append_len _ _ 8 (beBytes_length 8 _),
    take_append_len _ _ 4 (beBytes_length 4 _),
    take_append_len _ _ 8 (beBytes_length 8 _),
    take_append_len _ _ 4 (beBytes_length 4 _),
    take_append_len _ _ 4 (beBytes_length 4 _)]
  rw [beGet_beBytes_of_lt (by omega),
    beGet_beBytes_of_lt (by rw [h64]; exact hTs),
    beGet_beBytes_of_lt (by rw [h64]; exact hHOff),
    beGet_beBytes_of_lt (by rw [h32]; exact hHCk),
    beGet_beBytes_of_lt (by rw [h64]; exact hTP),
    beGet_beBytes_of_lt (by rw [h32]; exact hSP),
    beGet_beBytes_of_lt (by rw [h32]; exact hIEC)]
  rw [if_neg (by simp)]

/-- C8: `CommitEntrySize` equals 42, and for every well-formed commit entry
`e`, `readCommitEntry` applied to the buffer produced by
`putCommitEntry e` succeeds and returns e's Ts, HLogLastEntryOff,
HLogLastEntryChecksum, TotalPages, StalePages and IndexedEntryCount; all
fields are serialized big-endian in the order checksum, ts,
hLogLastEntryOff, hLogLastEntryChecksum, totalPages, stalePages,
indexedEntryCount, magic, and the stored checksum equals the
CRC32-Castagnoli of the 38 bytes that follow it. -/
theorem commitEntry_roundtrip (e : CommitEntry) (h : e.WF) :
    CommitEntrySize = 42 ∧
    (putCommitEntry e).drop ChecksumSize = commitEntryTail e ∧
    (commitEntryTail e).length = 38 ∧
    putCommitEntry e =
      beBytes 4 (computeChecksum (commitEntryTail e)) ++ commitEntryTail e ∧
    commitEntryTail e =
      beBytes 8 e.Ts ++ beBytes 8 e.HLogLastEntryOff ++
      beBytes 4 e.HLogLastEntryChecksum ++ beBytes 8 e.TotalPages ++
      beBytes 4 e.StalePages ++ beBytes 4 e.IndexedEntryCount ++
      beBytes 2 CommitMagic ∧
    readCommitEntry (putCommitEntry e) =
      .ok { e with Checksum := computeChecksum (commitEntryTail e) } :=
  ⟨rfl,
   drop_append_len _ _ ChecksumSize (beBytes_length 4 _),
   commitEntryTail_length e,
   rfl,
   rfl,
   readCommitEntry_putCommitEntry e h⟩

/-- Witness for `commitEntry_roundtrip` at a concrete commit entry. -/
theorem commitEntry_roundtrip_witness :
    (CommitEntry.mk 0 7 123456 99 5 2 10).WF ∧
    readCommitEntry (putCommitEntry (CommitEntry.mk 0 7 123456 99 5 2 10)) =
      .ok { CommitEntry.mk 0 7 123456 99 5 2 10 with
        Checksum :=
          computeChecksum (commitEntryTail
            (CommitEntry.mk 0 7 123456 99 5 2 10)) } :=
  ⟨by decide,
   (commitEntry_roundtrip (CommitEntry.mk 0 7 123456 99 5 2 10)
      (by decide)).2.2.2.2.2⟩

/-! ## Pages

The page codec (`page.go`) is not part of the provided sources; pages and
their operations are modelled from the specification.  One reconstruction
note: on inner pages the `NumEntries` header field counts child slots
(slot 0 is the left-most child carrying an empty sentinel separator), so a
page with `n` separator keys has `NumEntries = n + 1`.  This is forced by
the source itself: the new-root construction (tbtree.go:388-398) performs
`InsertKey(sepKey, splitPageID)` followed by `SetPageID(0, newPageID)`
producing a two-child root, and the flush loop (tbtree.go:1068) iterates
`i < NumEntries` over `ChildPageAt(i)` and must visit every child for the
persisted tree to be complete. -/

/-- Fixed page size in bytes (spec section 6.2). -/
def PageSize : Nat := 4096

/-- Models `MaxEntrySize = 2 * 1024` (tbtree.go:48). -/
def MaxEntrySize : Nat := 2048

/-- Modelled from the spec: in-memory page ids live in a reserved high-bit
range; ids with bit 63 set name write-buffer slots. -/
def memBit : Nat := 2 ^ 63

/-- Modelled from the spec: the reserved page id meaning absent. -/
def PageNone : Nat := 0

/-- Modelled from the spec: the sentinel history offset meaning that a key
has no prior version. -/
def OffsetNone : Nat := 2 ^ 64 - 1

/-- Models `pgID.isMemPage()`: whether a page id names a write-buffer
page. -/
def isMemPage (id : Nat) : Bool := memBit ≤ id

/-- A leaf entry; field names follow the source `Entry`. -/
structure Entry where
  Key : List Nat
  Value : List Nat
  Ts : Nat
  HOff : Nat
  HC : Nat
  deriving DecidableEq

/-- A history record; field names follow the source `HistoryEntry`. -/
structure HistoryEntry where
  PrevOffset : Nat
  Ts : Nat
  Value : List Nat
  deriving DecidableEq

/-- One child slot of an inner page: a separator key and the child page
id.  Slot 0 holds the left-most child under an empty sentinel key. -/
structure InnerSlot where
  key : List Nat
  child : Nat
  deriving DecidableEq

/-- Modelled from the spec: the three page kinds vended by the write
buffer.  `spilled` on an inner page models slot-directory bytes beyond
`NumEntries` that are still physically present after a split truncated the
page; `keyAt NumEntries` reads the first spilled key (the separator lifted
out by `splitInnerPage`), which is exactly how `sepKey`
(tbtree.go:676-681) retrieves it. -/
inductive Page where
  | leaf (entries : List Entry) (isRoot isCopied : Bool)
  | inner (slots spilled : List InnerSlot) (isRoot isCopied : Bool)
  | hist (entries : List HistoryEntry) (next : Nat)
  deriving DecidableEq

/-- Serialized form of a leaf entry (spec section 4.1: keyLen, key,
valueLen, value, ts, hOff, hC, big-endian). -/
def encodeEntry (e : Entry) : List Nat :=
  beBytes 2 e.Key.length ++ e.Key ++ beBytes 2 e.Value.length ++ e.Value ++
  beBytes 8 e.Ts ++ beBytes 8 e.HOff ++ beBytes 8 e.HC

/-- Serialized form of an inner-page slot: separator length, separator,
child page id. -/
def encodeSlot (s : InnerSlot) : List Nat :=
  beBytes 2 s.key.length ++ s.key ++ beBytes 8 s.child

/-- Serialized form of a history record (spec section 6.2:
`prevOffset:u64 | ts:u64 | valueLen:u16 | value`). -/
def serializeHistoryEntry (h : HistoryEntry) : List Nat :=
  beBytes 8 h.PrevOffset ++ beBytes 8 h.Ts ++ beBytes 2 h.Value.length ++
  h.Value

/-- The page flags byte: root bit and copied bit. -/
def pageFlags (isRoot isCopied : Bool) : Nat :=
  (cond isRoot 1 0) + (cond isCopied 2 0)

/-- Modelled from the spec: the logical payload of a page, a type tag and
flags, the entry count, and the serialized entries. -/
def pagePayload : Page → List Nat
  | .leaf entries r c =>
      [1, pageFlags r c] ++ beBytes 2 entries.length ++ beBytes 2 0 ++
        (entries.map encodeEntry).flatten
  | .inner slots _ r c =>
      [2, pageFlags r c] ++ beBytes 2 slots.length ++ beBytes 2 0 ++
        (slots.map encodeSlot).flatten
  | .hist entries next =>
      [3, 0] ++ beBytes 2 entries.length ++ beBytes 8 next ++
        (entries.map serializeHistoryEntry).flatten

/-- Modelled from the spec: `pg.Put(buf)` writes the page image into a
fixed `PageSize` buffer, zero-padding payloads smaller than `PageSize`,
and returns the written length (the on-disk image is exactly `PageSize`
bytes). -/
def putPage (pg : Page) : List Nat × Nat :=
  (pagePayload pg ++ List.replicate (PageSize - (pagePayload pg).length) 0,
   PageSize)

/-- Models `appendPage` (tbtree.go:1098-1114): reads the log size as the
write offset, serializes the page with `Put` into a `PageSize` buffer,
appends `buf[:n]` and returns `(n, PageID(writeOffset) + PageID(n))`. -/
def appendPage (pg : Page) (tlog : List Nat) : List Nat × Nat × Nat :=
  let writeOffset := tlog.length
  let buf := (putPage pg).1
  let n := (putPage pg).2
  (tlog ++ buf.take n, n, writeOffset + n)

/-- C1: for every page persisted by a flush (every such page goes through
`appendPage`), the bytes appended to the tree log are the page's
fixed-size `PageSize`-byte image, with payloads smaller than `PageSize`
zero-padded, and the persistent page id assigned to the page is the
tree-log offset before the append plus `PageSize`. -/
theorem appendPage_fixed_size_image (pg : Page) (tlog : List Nat)
    (h : (pagePayload pg).length ≤ PageSize) :
    appendPage pg tlog =
      (tlog ++ (pagePayload pg ++
        List.replicate (PageSize - (pagePayload pg).length) 0),
       PageSize, tlog.length + PageSize) ∧
    (pagePayload pg ++
      List.replicate (PageSize - (pagePayload pg).length) 0).length =
      PageSize := by
  have hlen : (pagePayload pg ++
      List.replicate (PageSize - (pagePayload pg).length) 0).length =
      PageSize := by
    simp only [List.length_append, List.length_replicate]
    omega
  refine ⟨?_, hlen⟩
  simp only [appendPage, putPage]
  rw [List.take_of_length_le (le_of_eq hlen)]

/-- A concrete one-entry leaf page used by witnesses. -/
def demoLeafPage : Page :=
  Page.leaf [Entry.mk [97] [49] 1 OffsetNone 0] true false

/-- Witness for `appendPage_fixed_size_image` on a concrete leaf page and
an empty log. -/
theorem appendPage_fixed_size_image_witness :
    (pagePayload demoLeafPage).length ≤ PageSize ∧
    appendPage demoLeafPage [] =
      ([] ++ (pagePayload demoLeafPage ++
        List.replicate (PageSize - (pagePayload demoLeafPage).length) 0),
       PageSize, (0 : Nat) + PageSize) :=
  ⟨by decide, (appendPage_fixed_size_image demoLeafPage [] (by decide)).1⟩

/-! ## Tree state

The mutable `TBTree` struct is embedded as a state record; Go's in-place
mutations become state updates in `EStateM`, whose results keep the state
when an error is thrown, exactly as Go keeps mutations made before an
error return. -/

/-- A record of the tree log: a page image or a commit entry. -/
inductive TreeLogRec where
  | page (pg : Page)
  | commit (e : CommitEntry)
  deriving DecidableEq

/-- Byte size of a tree-log record: pages occupy `PageSize` bytes (their
fixed-size image) and commit entries `CommitEntrySize` bytes. -/
def recSize : TreeLogRec → Nat
  | .page _ => PageSize
  | .commit _ => CommitEntrySize

/-- Total byte size of the tree log, models `treeApp.Size()`. -/
def logSize (log : List TreeLogRec) : Nat :=
  (log.map recSize).sum

/-- Looks up the persistent page whose end-of-write offset is `id`
(persistent ids are end offsets, see `readPage` tbtree.go:410-422). -/
def lookupTreeLogPage : List TreeLogRec → Nat → Nat → Option Page
  | [], _, _ => none
  | .page pg :: rest, off, id =>
      if off + PageSize = id then some pg
      else lookupTreeLogPage rest (off + PageSize) id
  | .commit _ :: rest, off, id =>
      lookupTreeLogPage rest (off + CommitEntrySize) id

/-- The state of one `TBTree` (tbtree.go:60-110); atomics are plain
fields, the write buffer is the list of arena pages (slot `i` is page id
`memBit + i`), and the two appendables are the log fields.  The `locked`
field models the write mutex being held by another owner. -/
structure TreeState where
  rootID : Nat
  lastSnapshotID : Nat
  rootTs : Nat
  lastSnapshotTs : Nat
  indexedEntryCount : Nat
  mutated : Bool
  locked : Bool
  depth : Nat
  nSplits : Nat
  wbPages : List Page
  wbCapacity : Nat
  headHistoryPageID : Nat
  tailHistoryPageID : Nat
  bufferedHistoryData : Nat
  treeLog : List TreeLogRec
  historyLog : List Nat
  numPages : Nat
  stalePages : Nat
  deriving DecidableEq

/-- The tree monad: state plus errors, where mutations made before an
error persist (as in Go). -/
abbrev TreeM (α : Type) : Type := EStateM TreeErr TreeState α

/-- Models `t.wb.Get(pgID)`: fetches a write-buffer page. -/
def wbGetPage (id : Nat) : TreeM Page := do
  let s ← get
  if isMemPage id then
    match s.wbPages.get? (id - memBit) with
    | some pg => pure pg
    | none => throw .invalidPageID
  else throw .invalidPageID

/-- Overwrites a write-buffer page in place. -/
def wbSetPage (id : Nat) (pg : Page) : TreeM Unit :=
  modify fun s => { s with wbPages := s.wbPages.set (id - memBit) pg }

/-- Modelled from the spec: the write buffer vends a fresh mem-page and
returns its in-memory id. -/
def allocPage (pg : Page) : TreeM Nat := do
  let s ← get
  let id := memBit + s.wbPages.length
  set { s with wbPages := s.wbPages ++ [pg] }
  pure id

/-- Modelled from the spec: `wb.Grow(n)` succeeds when the arena can still
reserve `n` more pages. -/
def wbGrow (n : Nat) : TreeM Bool := do
  let s ← get
  pure (s.wbPages.length + n ≤ s.wbCapacity)

/-- Models `canAccommodateWrite` (tbtree.go:358-360). -/
def canAccommodateWrite : TreeM Bool := do
  let s ← get
  wbGrow (s.depth + 2)

/-- Sets the copied flag of a page (`GetOrDup` marks duplicated pages). -/
def setCopied : Page → Page
  | .leaf es r _ => .leaf es r true
  | .inner sl sp r _ => .inner sl sp r true
  | .hist es nx => .hist es nx

/-- Models `t.wb.GetOrDup(id, t.dupPage)`: an in-memory id is returned
as-is; a persistent page is copied into a fresh mem-page (marked copied)
whose id is returned. -/
def getOrDup (id : Nat) : TreeM Nat := do
  if isMemPage id then pure id
  else do
    let s ← get
    match lookupTreeLogPage s.treeLog 0 id with
    | none => throw .shortRead
    | some pg => allocPage (setCopied pg)

/-- Sets the root flag of a page; models `pg.SetAsRoot()`. -/
def setAsRootM (id : Nat) : TreeM Unit := do
  let pg ← wbGetPage id
  match pg with
  | .leaf es _ c => wbSetPage id (.leaf es true c)
  | .inner sl sp _ c => wbSetPage id (.inner sl sp true c)
  | .hist _ _ => throw .corruptedPage

/-! ## Leaf and inner page operations (modelled from the spec) -/

/-- Lexicographic strict order on byte keys. -/
def keyLt : List Nat → List Nat → Bool
  | [], [] => false
  | [], _ :: _ => true
  | _ :: _, [] => false
  | a :: as, b :: bs =>
      if a < b then true else if b < a then false else keyLt as bs

/-- Byte size of one leaf entry inside a page: two slot-directory bytes
plus the serialized entry. -/
def entrySlotSize (e : Entry) : Nat := 2 + (encodeEntry e).length

/-- Modelled from the spec: occupied bytes of a leaf page (header plus
entries with their directory slots). -/
def leafOccupancy (entries : List Entry) : Nat :=
  6 + (entries.map entrySlotSize).sum

/-- Byte size of one inner-page slot with its directory entry. -/
def slotSize (s : InnerSlot) : Nat := 2 + (encodeSlot s).length

/-- Modelled from the spec: occupied bytes of an inner page. -/
def innerOccupancy (slots : List InnerSlot) : Nat :=
  6 + (slots.map slotSize).sum

/-- Inserts a leaf entry at its sorted position. -/
def insertEntrySorted (e : Entry) : List Entry → List Entry
  | [] => [e]
  | x :: xs =>
      if keyLt e.Key x.Key then e :: x :: xs else x :: insertEntrySorted e xs

/-- Modelled from the spec: `pg.InsertEntry(&e)` on a leaf.  Returns
`none` on `ErrPageFull` (checked before mutating), otherwise
`some (prevEntry?, replaced)`.  A replacement keeps the prior history
offset until `UpdateHistory` stores the archived one and bumps the history
count (spec section 4.5). -/
def leafInsertEntry (id : Nat) (e : Entry) :
    TreeM (Option (Option Entry × Bool)) := do
  let pg ← wbGetPage id
  match pg with
  | .leaf entries r c =>
    match entries.find? (fun x => x.Key = e.Key) with
    | some prev =>
        let newE : Entry := ⟨e.Key, e.Value, e.Ts, prev.HOff, prev.HC + 1⟩
        let newEntries :=
          entries.map (fun x => if x.Key = e.Key then newE else x)
        if leafOccupancy newEntries > PageSize then pure none
        else do
          wbSetPage id (.leaf newEntries r c)
          pure (some (some prev, true))
    | none =>
        let newE : Entry := ⟨e.Key, e.Value, e.Ts, OffsetNone, 0⟩
        let newEntries := insertEntrySorted newE entries
        if leafOccupancy newEntries > PageSize then pure none
        else do
          wbSetPage id (.leaf newEntries r c)
          pure (some (none, false))
  | _ => throw .corruptedPage

/-- Modelled from the spec: `pg.Remove(key)` on a leaf; a missing key is
reported as `none` (the source maps `ErrKeyNotFound` to no-op). -/
def leafRemove (id : Nat) (key : List Nat) : TreeM (Option Entry) := do
  let pg ← wbGetPage id
  match pg with
  | .leaf entries r c =>
    match entries.find? (fun x => x.Key = key) with
    | some prev => do
        wbSetPage id (.leaf (entries.filter (fun x => x.Key ≠ key)) r c)
        pure (some prev)
    | none => pure none
  | _ => throw .corruptedPage

/-- Modelled from the spec: `pg.UpdateHistory(key, hoff)` stores the
archived offset into the leaf entry of `key`. -/
def leafUpdateHistory (id : Nat) (key : List Nat) (hoff : Nat) :
    TreeM Unit := do
  let pg ← wbGetPage id
  match pg with
  | .leaf entries r c =>
      wbSetPage id (.leaf
        (entries.map fun x =>
          if x.Key = key then { x with HOff := hoff } else x) r c)
  | _ => throw .corruptedPage

/-- The slot index an inner page routes `key` to: the last slot whose
separator is at most `key` (slot 0 carries the sentinel left-most child).
Models `pg.Find` (spec section 4.6 with invariant 2). -/
def innerFindIdx (slots : List InnerSlot) (key : List Nat) : Nat :=
  match slots with
  | [] => 0
  | _ :: rest => (rest.takeWhile (fun s => ¬ keyLt key s.key)).length

/-- Child page id at slot `i`; models `pg.ChildPageAt(i)`. -/
def childPageAt (slots : List InnerSlot) (i : Nat) : Nat :=
  match slots.get? i with
  | some s => s.child
  | none => PageNone

/-- Rewrites the child id of slot `i`; models `pg.SetPageID(i, id)`. -/
def setChildAt (slots : List InnerSlot) (i : Nat) (cid : Nat) :
    List InnerSlot :=
  match slots.get? i with
  | some s => slots.set i ⟨s.key, cid⟩
  | none => slots

/-- Monadic `SetPageID` on a write-buffer inner page. -/
def setPageID (id : Nat) (i : Nat) (cid : Nat) : TreeM Unit := do
  let pg ← wbGetPage id
  match pg with
  | .inner slots sp r c => wbSetPage id (.inner (setChildAt slots i cid) sp r c)
  | _ => throw .corruptedPage

/-- Inserts a separator slot at its sorted position after the sentinel
slot 0. -/
def insertSlotSorted (s : InnerSlot) : List InnerSlot → List InnerSlot
  | [] => [s]
  | x :: xs => if keyLt s.key x.key then s :: x :: xs else x :: insertSlotSorted s xs

/-- Modelled from the spec: `pg.InsertKey(sep, childID)` adds the
separator with `childID` as the child to its right.  On an empty inner
page the sentinel left-most slot is materialized first (the source then
fills it via `SetPageID(0, ...)`, tbtree.go:397).  Returns `false` on
`ErrPageFull`. -/
def innerInsertKey (id : Nat) (sep : List Nat) (childID : Nat) :
    TreeM Bool := do
  let pg ← wbGetPage id
  match pg with
  | .inner slots sp r c =>
    match slots with
    | [] => do
        wbSetPage id (.inner [⟨[], PageNone⟩, ⟨sep, childID⟩] sp r c)
        pure true
    | s0 :: rest =>
        let newSlots := s0 :: insertSlotSorted ⟨sep, childID⟩ rest
        if innerOccupancy newSlots > PageSize then pure false
        else do
          wbSetPage id (.inner newSlots sp r c)
          pure true
  | _ => throw .corruptedPage

/-- Modelled from the spec: `pg.splitLeafPage(splitPage, e)` distributes
the combined entry set, keeping the lower half in place and moving the
upper half into the fresh right sibling (spec section 4.5). -/
def splitLeafPageM (pgId spId : Nat) (e : Entry) : TreeM Unit := do
  let pg ← wbGetPage pgId
  match pg with
  | .leaf entries r c =>
      let combined := insertEntrySorted e entries
      let h := (combined.length + 1) / 2
      wbSetPage pgId (.leaf (combined.take h) r c)
      let sp ← wbGetPage spId
      match sp with
      | .leaf _ r2 c2 => wbSetPage spId (.leaf (combined.drop h) r2 c2)
      | _ => throw .corruptedPage
  | _ => throw .corruptedPage

/-- Modelled from the spec: `pg.splitInnerPage(splitPage, sepKey,
splitPageID, newPageID)` first updates the slot of the child whose split
produced `sepKey` to `newPageID`, inserts `(sepKey, splitPageID)` to its
right, then moves the upper half into the fresh inner page; the lifted
middle separator stays readable past the truncated end (the `spilled`
slots), which is how `sepKey` retrieves it. -/
def splitInnerPageM (pgId spId : Nat) (sep : List Nat)
    (sepChild newChildID : Nat) : TreeM Unit := do
  let pg ← wbGetPage pgId
  match pg with
  | .inner slots _sp r c =>
    match slots with
    | [] => throw .corruptedPage
    | s0 :: rest =>
      let p := (rest.takeWhile (fun s => ¬ keyLt sep s.key)).length
      let slots1 := setChildAt (s0 :: rest) p newChildID
      let full :=
        match slots1 with
        | [] => [InnerSlot.mk sep sepChild]
        | t0 :: trest => t0 :: insertSlotSorted ⟨sep, sepChild⟩ trest
      let m := (full.length + 1) / 2
      let lifted := full.drop m
      wbSetPage pgId (.inner (full.take m) lifted r c)
      let spPg ← wbGetPage spId
      match spPg, lifted with
      | .inner _ _ r2 c2, l0 :: lrest =>
          wbSetPage spId (.inner (⟨[], l0.child⟩ :: lrest) [] r2 c2)
      | _, _ => throw .corruptedPage
  | _ => throw .corruptedPage

/-! ## History archival (tbtree.go:585-667) -/

/-- Occupied payload bytes of a history page (a next-page link plus the
serialized records; modelled from the spec). -/
def histOccupancy (entries : List HistoryEntry) : Nat :=
  10 + (entries.map (fun h => (serializeHistoryEntry h).length)).sum

/-- Modelled from the spec: `pg.Append(he)` on a history page returns the
serialized length, or `none` on `ErrPageFull`. -/
def histAppend (id : Nat) (he : HistoryEntry) : TreeM (Option Nat) := do
  let pg ← wbGetPage id
  match pg with
  | .hist entries next =>
      let n := (serializeHistoryEntry he).length
      if histOccupancy entries + n > PageSize then pure none
      else do
        wbSetPage id (.hist (entries ++ [he]) next)
        pure (some n)
  | _ => throw .corruptedPage

/-- Models `pg.SetNextPageID` on a history page. -/
def setNextPageID (id next : Nat) : TreeM Unit := do
  let pg ← wbGetPage id
  match pg with
  | .hist entries _ => wbSetPage id (.hist entries next)
  | _ => throw .corruptedPage

/-- Models `getCurrHistoryPage` (tbtree.go:656-667). -/
def getCurrHistoryPage : TreeM Nat := do
  let s ← get
  if s.headHistoryPageID = PageNone then do
    let id ← allocPage (.hist [] PageNone)
    modify fun st =>
      { st with headHistoryPageID := id, tailHistoryPageID := id }
    pure id
  else pure s.tailHistoryPageID

/-- Models `archiveEntry` (tbtree.go:585-618): appends the displaced
version to the current history page (allocating a new chained page when
full) and returns its buffered history offset. -/
def archiveEntry (e : Entry) : TreeM Nat := do
  let hpId ← getCurrHistoryPage
  let he : HistoryEntry := ⟨e.HOff, e.Ts, e.Value⟩
  let r ← histAppend hpId he
  let n ← match r with
    | some n => pure n
    | none => do
        let newId ← allocPage (.hist [] PageNone)
        setNextPageID hpId newId
        modify fun st => { st with tailHistoryPageID := newId }
        let r2 ← histAppend newId he
        match r2 with
        | some n => pure n
        | none => throw .pageFull
  let s ← get
  set { s with bufferedHistoryData := s.bufferedHistoryData + n }
  pure s.bufferedHistoryData

/-! ## Copy-on-write insertion (tbtree.go:362-681) -/

/-- Result of a recursive insert step; `splitPageRef` is the id of the
page the source's `splitPage` pointer refers to (the right sibling for a
leaf split, the truncated left page for an inner split). -/
structure InsertResult where
  split : Bool
  newPageID : Nat
  splitPageID : Nat
  splitPageRef : Nat
  deriving DecidableEq

instance : Inhabited InsertResult :=
  ⟨⟨false, PageNone, PageNone, PageNone⟩⟩

/-- Models `res.sepKey()` (tbtree.go:676-681): the first key of a split
leaf, or the key one past the truncated end of a split inner page. -/
def sepKeyM (res : InsertResult) : TreeM (List Nat) := do
  let pg ← wbGetPage res.splitPageRef
  match pg with
  | .leaf entries _ _ =>
    match entries.head? with
    | some e => pure e.Key
    | none => throw .corruptedPage
  | .inner slots spilled _ _ =>
    match (slots ++ spilled).get? slots.length with
    | some s => pure s.key
    | none => throw .corruptedPage
  | .hist _ _ => throw .corruptedPage

/-- Models `insertEmpty` (tbtree.go:542-558). -/
def insertEmpty (e : Entry) : TreeM InsertResult := do
  let id ← allocPage (.leaf [] false false)
  let r ← leafInsertEntry id e
  match r with
  | none => throw .pageFull
  | some _ => pure ()
  setAsRootM id
  modify fun s => { s with depth := s.depth + 1 }
  pure { split := false, newPageID := id, splitPageID := PageNone,
         splitPageRef := PageNone }

/-- Models `splitLeafPage` (tbtree.go:620-654). -/
def splitLeafPageTop (pgId : Nat) (e : Entry) : TreeM InsertResult := do
  modify fun s => { s with nSplits := s.nSplits + 1 }
  let spId ← allocPage (.leaf [] false false)
  let prev? ← leafRemove pgId e.Key
  let e' ← match prev? with
    | some prev => do
        let hoff ← archiveEntry prev
        pure { e with HOff := hoff, HC := prev.HC + 1 }
    | none => pure e
  splitLeafPageM pgId spId e'
  pure { split := true, newPageID := pgId, splitPageID := spId,
         splitPageRef := spId }

/-- Models `insertLeaf` (tbtree.go:560-583). -/
def insertLeaf (pgId : Nat) (e : Entry) (depth : Nat) :
    TreeM InsertResult := do
  let r ← leafInsertEntry pgId e
  match r with
  | none => splitLeafPageTop pgId e
  | some (prev?, replaced) => do
      if replaced then
        match prev? with
        | some prev => do
            let hoff ← archiveEntry prev
            leafUpdateHistory pgId e.Key hoff
        | none => pure ()
      else pure ()
      modify fun s => { s with depth := depth }
      pure { split := false, newPageID := pgId, splitPageID := PageNone,
             splitPageRef := PageNone }

/-- Models `insertInnerPage` (tbtree.go:514-540): tries to add the
separator; on `ErrPageFull` splits the inner page and reports
`splitted = true`. -/
def insertInnerPage (pgId : Nat) (res : InsertResult) :
    TreeM (InsertResult × Bool) := do
  let sep ← sepKeyM res
  let ok ← innerInsertKey pgId sep res.splitPageID
  if ok then pure (default, false)
  else do
    modify fun s => { s with nSplits := s.nSplits + 1 }
    let spId ← allocPage (.inner [] [] false false)
    splitInnerPageM pgId spId sep res.splitPageID res.newPageID
    pure ({ split := true, newPageID := pgId, splitPageID := spId,
            splitPageRef := pgId }, true)

/-- Models the recursive `insert` (tbtree.go:476-512); `fuel` bounds the
recursion depth (the source recurses along the finite root-to-leaf
path). -/
def insertRec : Nat → Nat → Entry → Nat → TreeM InsertResult
  | 0, _, _, _ => throw .outOfFuel
  | fuel + 1, id, e, depth => do
    if id = PageNone then insertEmpty e
    else do
      let newPageID ← getOrDup id
      let pg ← wbGetPage newPageID
      match pg with
      | .leaf _ _ _ => insertLeaf newPageID e depth
      | .inner slots _ _ _ => do
          let idx := innerFindIdx slots e.Key
          let childPageID := childPageAt slots idx
          let res ← insertRec fuel childPageID e (depth + 1)
          if res.split then do
            let (res2, splitted) ← insertInnerPage newPageID res
            if splitted then pure res2
            else do
              setPageID newPageID idx res.newPageID
              pure { split := false, newPageID := newPageID,
                     splitPageID := PageNone, splitPageRef := PageNone }
          else do
            setPageID newPageID idx res.newPageID
            pure { split := false, newPageID := newPageID,
                   splitPageID := PageNone, splitPageRef := PageNone }
      | .hist _ _ => throw .corruptedPage

/-- Recursion budget used when running `insertRec`; ample for every state
considered here (the source recursion is bounded by the tree depth). -/
def insertFuel : Nat := 64

/-- Models the timestamp validation prefix of `Insert`
(tbtree.go:363-368): a zero timestamp and a timestamp below the root
timestamp are both rejected with `ErrInvalidTimestamp`. -/
def insertTsCheck (rootTs ts : Nat) : Option TreeErr :=
  if ts = 0 then some .invalidTimestamp
  else if ts < rootTs then some .invalidTimestamp
  else none

/-- Models `Insert` (tbtree.go:362-408). -/
def Insert (e : Entry) : TreeM Unit := do
  let s0 ← get
  match insertTsCheck s0.rootTs e.Ts with
  | some err => throw err
  | none => do
    if s0.locked then throw .treeLocked
    else do
      let ok ← canAccommodateWrite
      if ¬ ok then throw .writeBufferFull
      else do
        let res ← insertRec insertFuel s0.rootID e 0
        if res.split then do
          modify fun s => { s with nSplits := s.nSplits + 1,
                                   depth := s.depth + 1 }
          let newRootID ← allocPage (.inner [] [] false false)
          let sep ← sepKeyM res
          let ok2 ← innerInsertKey newRootID sep res.splitPageID
          if ¬ ok2 then throw .pageFull
          else do
            setPageID newRootID 0 res.newPageID
            setAsRootM newRootID
            modify fun s => { s with rootID := newRootID }
        else
          modify fun s => { s with rootID := res.newPageID }
        modify fun s => { s with rootTs := e.Ts, mutated := true }

/-- Models `Advance` (tbtree.go:435-474): equal timestamps are a no-op,
older ones fail, newer ones update the two atomics under the try-lock. -/
def Advance (ts entryCount : Nat) : TreeM Unit := do
  let s ← get
  if ts = s.rootTs then pure ()
  else if ts < s.rootTs then throw .invalidTimestamp
  else if s.locked then throw .treeLocked
  else modify fun st =>
    { st with rootTs := ts, indexedEntryCount := entryCount }

/-! ## Snapshots and reads (tbtree.go:745-870) -/

/-- A read snapshot: a persisted root id and a timestamp. -/
structure Snap where
  rootID : Nat
  ts : Nat
  deriving DecidableEq

/-- Models `t.snapshot()` (tbtree.go:798-813): fails with
`ErrNoSnapshotAvailable` when no persisted snapshot exists, asserts the
root is not a mem page, and captures `(lastSnapshotID, lastSnapshotTs)`. -/
def snapshotRead : TreeM Snap := do
  let s ← get
  let ts := s.lastSnapshotTs
  let snapRootID := s.lastSnapshotID
  if snapRootID = PageNone then throw .noSnapshotAvailable
  else if isMemPage snapRootID then throw .assertFailed
  else pure ⟨snapRootID, ts⟩

/-- Models `ReadSnapshot` (tbtree.go:794-796). -/
def ReadSnapshot : TreeM Snap := snapshotRead

/-- Models `findPage` (tbtree.go:845-862): descends from a persisted page
id through the page buffer until a leaf is reached. -/
def findPageRec : Nat → List Nat → Nat → TreeM (Page × Nat)
  | 0, _, _ => throw .outOfFuel
  | fuel + 1, key, id => do
    let s ← get
    match lookupTreeLogPage s.treeLog 0 id with
    | none => throw .shortRead
    | some pg =>
      match pg with
      | .leaf _ _ _ => pure (pg, id)
      | .inner slots _ _ _ =>
          findPageRec fuel key (childPageAt slots (innerFindIdx slots key))
      | .hist _ _ => throw .corruptedPage

/-- Descent budget for persisted lookups. -/
def findFuel : Nat := 64

/-- Reads one serialized history record of the history log at byte offset
`off` (the layout read by `getRevision`, tbtree.go:815-843). -/
def readHistEntryAt (hlog : List Nat) (off : Nat) : Option HistoryEntry :=
  if off + 18 ≤ hlog.length then
    let prev := beGet ((hlog.drop off).take 8)
    let ts := beGet ((hlog.drop (off + 8)).take 8)
    let vlen := beGet ((hlog.drop (off + 16)).take 2)
    if off + 18 + vlen ≤ hlog.length then
      some ⟨prev, ts, (hlog.drop (off + 18)).take vlen⟩
    else none
  else none

/-- Modelled from the spec: the backward walk of `snap.GetBetween`: if the
current revision's timestamp is at most `finalTs` it qualifies exactly
when it is at least `initialTs`; otherwise the walk steps to the previous
revision through the history log, failing with `ErrKeyNotFound` at the
chain end.  The returned history count is the leaf entry's. -/
def goBetween (hlog : List Nat) :
    Nat → List Nat → Nat → Nat → Nat → Nat → Nat →
      Except TreeErr (List Nat × Nat × Nat)
  | 0, _, _, _, _, _, _ => .error .outOfFuel
  | fuel + 1, v, ts, hoff, hc, initialTs, finalTs =>
    if ts ≤ finalTs then
      if initialTs ≤ ts then .ok (v, ts, hc) else .error .keyNotFound
    else
      if hoff = OffsetNone then .error .keyNotFound
      else match readHistEntryAt hlog hoff with
      | none => .error .shortRead
      | some he =>
          goBetween hlog fuel he.Value he.Ts he.PrevOffset hc initialTs
            finalTs

/-- Modelled from the spec: `snap.GetBetween(key, initialTs, finalTs)`
reads the leaf entry and walks the history chain backward until a
timestamp in `[initialTs, finalTs]` is found, `ErrKeyNotFound`
otherwise. -/
def snapGetBetween (snap : Snap) (key : List Nat)
    (initialTs finalTs : Nat) : TreeM (List Nat × Nat × Nat) := do
  let (pg, _) ← findPageRec findFuel key snap.rootID
  match pg with
  | .leaf entries _ _ =>
    match entries.find? (fun x => x.Key = key) with
    | none => throw .keyNotFound
    | some e => do
        let s ← get
        match goBetween s.historyLog (e.HC + 1) e.Value e.Ts e.HOff e.HC
            initialTs finalTs with
        | .ok v => pure v
        | .error err => throw err
  | _ => throw .corruptedPage

/-- Models `GetBetween` (tbtree.go:745-753): opens a read snapshot (whose
errors propagate unchanged) and delegates to the snapshot reader. -/
def GetBetween (key : List Nat) (initialTs finalTs : Nat) :
    TreeM (List Nat × Nat × Nat) := do
  let snap ← snapshotRead
  snapGetBetween snap key initialTs finalTs

/-- Collects prior revisions by walking the history chain backward. -/
def collectRevs (hlog : List Nat) : Nat → Nat → List (List Nat × Nat)
  | 0, _ => []
  | fuel + 1, hoff =>
    if hoff = OffsetNone then []
    else match readHistEntryAt hlog hoff with
    | none => []
    | some he => (he.Value, he.Ts) :: collectRevs hlog fuel he.PrevOffset

/-- Modelled from the spec: `snap.History` returns the revisions of a key
(newest first in descending order) and the total revision count. -/
def snapHistory (snap : Snap) (key : List Nat) (offset : Nat)
    (descOrder : Bool) (limit : Nat) :
    TreeM (List (List Nat × Nat) × Nat) := do
  let (pg, _) ← findPageRec findFuel key snap.rootID
  match pg with
  | .leaf entries _ _ =>
    match entries.find? (fun x => x.Key = key) with
    | none => throw .keyNotFound
    | some e => do
        let s ← get
        let revs := (e.Value, e.Ts) :: collectRevs s.historyLog e.HC e.HOff
        let ordered := if descOrder then revs else revs.reverse
        pure (((ordered.drop offset).take limit), e.HC + 1)
  | _ => throw .corruptedPage

/-- Models `History` (tbtree.go:767-778): a failed `ReadSnapshot` with
`ErrNoSnapshotAvailable` is reported as `ErrKeyNotFound`; any other error
propagates; on success the snapshot reader runs. -/
def History (key : List Nat) (offset : Nat) (descOrder : Bool)
    (limit : Nat) : TreeM (List (List Nat × Nat) × Nat) := do
  let snap ← tryCatch ReadSnapshot fun e =>
    if e = .noSnapshotAvailable then throw .keyNotFound else throw e
  snapHistory snap key offset descOrder limit

/-! ## Flush (tbtree.go:872-1114) -/

/-- Result of `flushTreeLog`; field names follow the source `flushRes`. -/
structure FlushRes where
  pagesFlushed : Nat
  bytesWritten : Nat
  rootID : Nat
  stalePages : Nat
  deriving DecidableEq

/-- Pure write-buffer lookup (the monadic model extracts `wbPages` before
running the pure flush). -/
def wbGetP (wb : List Page) (id : Nat) : Option Page :=
  if isMemPage id then wb.get? (id - memBit) else none

/-- Pure form of `setPageID` on the write buffer. -/
def wbSetChildP (wb : List Page) (id i cid : Nat) : List Page :=
  match wb.get? (id - memBit) with
  | some (.inner slots sp r c) =>
      wb.set (id - memBit) (.inner (setChildAt slots i cid) sp r c)
  | _ => wb

/-- Models `getWritePage` (tbtree.go:1129-1141): a mem id resolves in the
write buffer, a persistent id is read through the page buffer. -/
def getWritePageP (wb : List Page) (log : List TreeLogRec) (id : Nat) :
    Option Page :=
  if isMemPage id then wbGetP wb id else lookupTreeLogPage log 0 id

/-- The page value whose image `appendPage` serializes: live slots only
(spilled slot-directory residue is past `NumEntries` and not part of the
parsed image). -/
def storedPage : Page → Page
  | .inner slots _ r c => .inner slots [] r c
  | pg => pg

/-- Record-level form of `appendPage` (tbtree.go:1098-1114) used by the
flush: the written length is `PageSize` (`putPage`), the assigned id is
the log size before the append plus that length. -/
def appendPageRec (pg : Page) (log : List TreeLogRec) :
    Nat × Nat × List TreeLogRec :=
  (PageSize, logSize log + PageSize, log ++ [.page (storedPage pg)])

/-- Whether the page carries the copied flag; models `pg.IsCopied()`. -/
def pageIsCopied : Page → Bool
  | .leaf _ _ c => c
  | .inner _ _ _ c => c
  | .hist _ _ => false

/-- The loop body of `flushTreeLog` over the child slots of an inner page
(tbtree.go:1068-1083): non-mem children are skipped, mem children are
flushed through `rec` and their slot is overwritten with the persistent id
returned for them.  The accumulator carries (pagesFlushed, bytesWritten,
stalePages). -/
def flushChildren
    (rec : Nat → List Page → List TreeLogRec →
      Except TreeErr (FlushRes × List Page × List TreeLogRec))
    (ppid : Nat) (fullDump : Bool) :
    List Nat → Nat × Nat × Nat → List Page → List TreeLogRec →
      Except TreeErr ((Nat × Nat × Nat) × List Page × List TreeLogRec)
  | [], acc, wb, log => .ok (acc, wb, log)
  | i :: rest, acc, wb, log =>
    match wbGetP wb ppid with
    | some (.inner slots _ _ _) =>
      let childPageID := childPageAt slots i
      if ¬ isMemPage childPageID ∧ ¬ fullDump then
        flushChildren rec ppid fullDump rest acc wb log
      else
        match rec childPageID wb log with
        | .error e => .error e
        | .ok (res, wb1, log1) =>
            let wb2 := wbSetChildP wb1 ppid i res.rootID
            flushChildren rec ppid fullDump rest
              (acc.1 + res.pagesFlushed, acc.2.1 + res.bytesWritten,
               acc.2.2 + res.stalePages) wb2 log1
    | _ => .error .corruptedPage

/-- Models `flushTreeLog` (tbtree.go:1035-1096) as a pure function of the
write buffer and the tree log; `fuel` bounds the recursion depth (the
source recurses along the finite page tree).  A leaf is appended directly;
an inner page first flushes its mem children (rewriting their slots), then
appends itself. -/
def flushTreeLogF : Nat → Nat → Bool → List Page → List TreeLogRec →
    Except TreeErr (FlushRes × List Page × List TreeLogRec)
  | 0, _, _, _, _ => .error .outOfFuel
  | fuel + 1, pageID, fullDump, wb, log =>
    if ¬ isMemPage pageID ∧ ¬ fullDump then .error .nonMemPageFlush
    else
      match getWritePageP wb log pageID with
      | some (.leaf es r0 c0) =>
        let pg := Page.leaf es r0 c0
        let stale : Nat := if isMemPage pageID ∧ pageIsCopied pg then 1 else 0
        let r := appendPageRec pg log
        .ok ({ pagesFlushed := 1, bytesWritten := r.1, rootID := r.2.1,
               stalePages := stale }, wb, r.2.2)
      | some (.inner slots _ _ _) =>
        match flushChildren (fun cid => flushTreeLogF fuel cid fullDump)
            pageID fullDump (List.range slots.length) (0, 0, 0) wb log with
        | .error e => .error e
        | .ok (acc, wb1, log1) =>
          match getWritePageP wb1 log1 pageID with
          | none => .error .invalidPageID
          | some pg1 =>
            let stale : Nat :=
              if isMemPage pageID ∧ pageIsCopied pg1 then 1 else 0
            let r := appendPageRec pg1 log1
            .ok ({ pagesFlushed := acc.1 + 1,
                   bytesWritten := acc.2.1 + r.1,
                   rootID := r.2.1,
                   stalePages := acc.2.2 + stale }, wb1, r.2.2)
      | some (.hist _ _) => .error .corruptedPage
      | none => .error .invalidPageID

/-- Walks the in-memory history chain appending each page's raw payload
to the history log; models the loop of `flushHistory`
(tbtree.go:989-1010).  Returns (bytes written, last payload, offset of
the last payload). -/
def flushHistLoop : Nat → Nat → Nat → List Nat → Nat →
    TreeM (Nat × List Nat × Nat)
  | 0, _, _, _, _ => throw .outOfFuel
  | fuel + 1, currPage, nAcc, lastData, lastOff => do
    if currPage = PageNone then pure (nAcc, lastData, lastOff)
    else do
      let pg ← wbGetPage currPage
      match pg with
      | .hist entries next => do
          let data := (entries.map serializeHistoryEntry).flatten
          let s ← get
          let off := s.historyLog.length
          set { s with historyLog := s.historyLog ++ data }
          flushHistLoop fuel next (nAcc + data.length) data off
      | _ => throw .corruptedPage

/-- Models `flushHistory` (tbtree.go:982-1021): nothing to do without a
chain head; otherwise the chain is appended page by page, the head
cleared, and the checksum of the last payload returned with its offset. -/
def flushHistory : TreeM (Nat × Nat × Nat) := do
  let s ← get
  if s.headHistoryPageID = PageNone then pure (0, 0, 0)
  else do
    let r ← flushHistLoop (s.wbPages.length + 1) s.headHistoryPageID 0 [] 0
    modify fun st => { st with headHistoryPageID := PageNone }
    pure (r.1, computeChecksum r.2.1, r.2.2)

/-- Models `flushTo` (tbtree.go:920-956): history first, then the tree
pages in post-order, then the counters, then the commit entry. -/
def flushTo : TreeM (Nat × FlushRes) := do
  let h ← flushHistory
  let s ← get
  match flushTreeLogF (s.wbPages.length + 1) s.rootID false s.wbPages
      s.treeLog with
  | .error e => throw e
  | .ok (res, wb1, log1) => do
      set { s with wbPages := wb1, treeLog := log1 }
      modify fun st =>
        { st with stalePages := st.stalePages + res.stalePages,
                  numPages := st.numPages + res.pagesFlushed }
      let st ← get
      let ce : CommitEntry :=
        { Checksum := 0, Ts := st.rootTs, HLogLastEntryOff := h.2.2,
          HLogLastEntryChecksum := h.2.1, TotalPages := res.pagesFlushed,
          StalePages := st.stalePages,
          IndexedEntryCount := st.indexedEntryCount }
      modify fun st2 => { st2 with treeLog := st2.treeLog ++ [.commit ce] }
      pure (h.1, res)

/-- Models `flushToTreeLog` (tbtree.go:897-918): a no-op when not
mutated, otherwise flushes and publishes the new persistent root. -/
def flushToTreeLog : TreeM Unit := do
  let s ← get
  if ¬ s.mutated then pure ()
  else do
    let r ← flushTo
    modify fun st =>
      { st with rootID := r.2.rootID, lastSnapshotID := r.2.rootID,
                lastSnapshotTs := st.rootTs,
                headHistoryPageID := PageNone,
                tailHistoryPageID := PageNone, mutated := false }

/-- Models `ensureLatestSnapshotContainsTs` (tbtree.go:1201-1224): the
`StaleRootTimestamp` guard runs before any flush is attempted. -/
def ensureLatestSnapshotContainsTs (ts : Nat) : TreeM (Nat × Nat) := do
  let s ← get
  let lastSnapRootID := s.lastSnapshotID
  let flushNeeded : Bool :=
    decide (lastSnapRootID = PageNone ∨ (0 < ts ∧ s.lastSnapshotTs < ts))
  if s.rootTs < ts then throw .staleRootTimestamp
  else do
    if flushNeeded then flushToTreeLog else pure ()
    let st ← get
    pure (st.lastSnapshotID, st.lastSnapshotTs)

/-- Models `SnapshotAtTs` (tbtree.go:1172-1187). -/
def SnapshotAtTs (ts : Nat) : TreeM Snap := do
  let r ← ensureLatestSnapshotContainsTs ts
  let snapAtTs := if ts = 0 then r.2 else ts
  pure ⟨r.1, snapAtTs⟩

/-- Models `SnapshotMustIncludeTs` (tbtree.go:1189-1199). -/
def SnapshotMustIncludeTs (ts : Nat) : TreeM Snap := do
  let r ← ensureLatestSnapshotContainsTs ts
  pure ⟨r.1, r.2⟩

/-! ## Recovery scan and Open (tbtree.go:112-252)

Go strings are modelled as lists of characters so that the name filtering
of the recovery loop is fully computable. -/

/-- The base tree-log file name (tbtree.go:51). -/
def TreeLogFileName : List Char := "tree".toList

/-- A directory entry as returned by `readDir`. -/
structure DirEntry where
  name : List Char
  isDir : Bool
  deriving DecidableEq

/-- Models `strings.Split(s, "_")`: splits at every underscore, keeping
empty parts. -/
def splitUnderscore : List Char → List Char → List (List Char)
  | [], cur => [cur.reverse]
  | c :: rest, cur =>
      if c = '_' then cur.reverse :: splitUnderscore rest []
      else splitUnderscore rest (c :: cur)

/-- Models `strings.HasPrefix`. -/
def startsWithChars : List Char → List Char → Bool
  | [], _ => true
  | _ :: _, [] => false
  | p :: ps, c :: cs => p = c && startsWithChars ps cs

/-- Models `strconv.ParseUint(s, 10, 64)`: digits only, non-empty, within
64 bits. -/
def parseUint10 (s : List Char) : Option Nat :=
  if 0 < s.length then
    if s.all Char.isDigit then
      let v := s.foldl (fun acc c => acc * 10 + (c.toNat - 48)) 0
      if v < 2 ^ 64 then some v else none
    else none
  else none

/-- The name filter of the recovery loop (tbtree.go:232-244): the name
must start with `tree`, split on underscores into exactly two parts, the
first part must equal `tree` and the second must parse as a decimal
timestamp. -/
def parseSnapDirName (name : List Char) : Option Nat :=
  if startsWithChars TreeLogFileName name then
    match splitUnderscore name [] with
    | [p0, p1] =>
      match parseUint10 p1 with
      | some ts => if p0 = TreeLogFileName then some ts else none
      | none => none
    | _ => none
  else none

/-- Models `recoverLatestValidTreeSnapshot` (tbtree.go:224-252): walks the
directory entries in the order `readDir` returned them; the first entry
that matches the name pattern and recovers successfully wins and the
function returns zero attempts; otherwise every failed attempt is
counted.  `recoverSnap` returns the recovered handle on success, as the
source's closure assigns the opened tree. -/
def recoverLatestValidTreeSnapshot {H : Type}
    (recoverSnap : List Char → Nat → Option H) :
    List DirEntry → Nat → Nat × Option H
  | [], attempts => (attempts, none)
  | e :: rest, attempts =>
    if ¬ e.isDir then recoverLatestValidTreeSnapshot recoverSnap rest attempts
    else match parseSnapDirName e.name with
      | none => recoverLatestValidTreeSnapshot recoverSnap rest attempts
      | some ts =>
        match recoverSnap e.name ts with
        | some h => (0, some h)
        | none =>
            recoverLatestValidTreeSnapshot recoverSnap rest (attempts + 1)

/-- Outcome of the recovery phase of `Open`. -/
inductive OpenOutcome (H : Type) where
  | opened (t : H)
  | openedBase
  | panicNilDeref
  deriving DecidableEq

/-- A Go method call on a possibly-nil pointer receiver: calling
`t.Path()` with `t == nil` dereferences the nil pointer and panics. -/
def derefPath {H : Type} (path : H → List Char) :
    Option H → Except Unit (List Char)
  | none => .error ()
  | some t => .ok (path t)

/-- Models the recovery phase of `Open` (tbtree.go:132-172): when a
snapshot recovers, that tree is returned; when all attempts fail and at
least one was made, the source logs a warning whose arguments include
`t.Path()` (tbtree.go:153-158) evaluated while `t` is still nil, which
dereferences a nil pointer; with no attempts the base `tree` log is
opened. -/
def openRecoveryPhase {H : Type} (entries : List DirEntry)
    (recoverSnap : List Char → Nat → Option H) (path : H → List Char) :
    OpenOutcome H :=
  match recoverLatestValidTreeSnapshot recoverSnap entries 0 with
  | (_, some tree) => .opened tree
  | (recoveryAttempts, none) =>
    if 0 < recoveryAttempts then
      match derefPath path (none : Option H) with
      | .error _ => .panicNilDeref
      | .ok _ => .openedBase
    else .openedBase

/-! ## Claim theorems -/

/-- A demonstration tree state: unlocked, root timestamp 3. -/
def demoAdvState : TreeState :=
  { rootID := PageNone, lastSnapshotID := PageNone, rootTs := 3,
    lastSnapshotTs := 0, indexedEntryCount := 1, mutated := false,
    locked := false, depth := 0, nSplits := 0, wbPages := [],
    wbCapacity := 8, headHistoryPageID := PageNone,
    tailHistoryPageID := PageNone, bufferedHistoryData := 0, treeLog := [],
    historyLog := [], numPages := 0, stalePages := 0 }

/-- C7: on an unlocked tree, `Advance(ts, entryCount)` returns
`InvalidTimestamp` leaving `rootTs` and `indexedEntryCount` unchanged when
`ts < rootTs`; is a pure no-op returning nil when `ts = rootTs`; and when
`ts > rootTs` stores `ts` into `rootTs` and `entryCount` into
`indexedEntryCount` while leaving `rootID` and the `mutated` flag (and all
other state) unchanged. -/
theorem Advance_cases (s : TreeState) (ts entryCount : Nat)
    (h : s.locked = false) :
    (ts < s.rootTs →
      (Advance ts entryCount).run s =
        EStateM.Result.error TreeErr.invalidTimestamp s) ∧
    (ts = s.rootTs →
      (Advance ts entryCount).run s = EStateM.Result.ok () s) ∧
    (s.rootTs < ts →
      (Advance ts entryCount).run s =
        EStateM.Result.ok ()
          { s with rootTs := ts, indexedEntryCount := entryCount }) := by
  refine ⟨fun hts => ?_, fun hts => ?_, fun hts => ?_⟩ <;>
    simp only [Advance, EStateM.run, bind, EStateM.bind, get, getThe,
      MonadStateOf.get, EStateM.get]
  · rw [if_neg (by omega), if_pos hts]; rfl
  · rw [if_pos hts]; rfl
  · rw [if_neg (by omega), if_neg (by omega), if_neg (by simp [h])]; rfl

/-- Witness for `Advance_cases` on a concrete state for all three
timestamp positions. -/
theorem Advance_cases_witness :
    (Advance 2 7).run demoAdvState =
      EStateM.Result.error TreeErr.invalidTimestamp demoAdvState ∧
    (Advance 3 7).run demoAdvState = EStateM.Result.ok () demoAdvState ∧
    (Advance 5 7).run demoAdvState =
      EStateM.Result.ok ()
        { demoAdvState with rootTs := 5, indexedEntryCount := 7 } :=
  ⟨(Advance_cases demoAdvState 2 7 rfl).1 (by decide),
   (Advance_cases demoAdvState 3 7 rfl).2.1 (by decide),
   (Advance_cases demoAdvState 5 7 rfl).2.2 (by decide)⟩

/-- C10: for every timestamp strictly greater than the current root
timestamp, `SnapshotAtTs` and `SnapshotMustIncludeTs` fail with
`StaleRootTimestamp` before any flush is attempted: the state (both logs,
`rootID`, `lastSnapshotID`, `lastSnapshotTs`, the `mutated` flag, and
everything else) is returned unchanged. -/
theorem SnapshotAtTs_staleRoot (s : TreeState) (ts : Nat)
    (h : s.rootTs < ts) :
    (SnapshotAtTs ts).run s =
      EStateM.Result.error TreeErr.staleRootTimestamp s ∧
    (SnapshotMustIncludeTs ts).run s =
      EStateM.Result.error TreeErr.staleRootTimestamp s := by
  have hens : ensureLatestSnapshotContainsTs ts s =
      EStateM.Result.error TreeErr.staleRootTimestamp s := by
    show (ensureLatestSnapshotContainsTs ts).run s = _
    simp only [ensureLatestSnapshotContainsTs, EStateM.run, bind,
      EStateM.bind, get, getThe, MonadStateOf.get, EStateM.get]
    rw [if_pos h]; rfl
  constructor <;>
    · simp only [SnapshotAtTs, SnapshotMustIncludeTs, EStateM.run, bind,
        EStateM.bind]
      rw [hens]

/-- Witness for `SnapshotAtTs_staleRoot` at a concrete state and
timestamp. -/
theorem SnapshotAtTs_staleRoot_witness :
    (SnapshotAtTs 4).run demoAdvState =
      EStateM.Result.error TreeErr.staleRootTimestamp demoAdvState ∧
    (SnapshotMustIncludeTs 4).run demoAdvState =
      EStateM.Result.error TreeErr.staleRootTimestamp demoAdvState :=
  ⟨(SnapshotAtTs_staleRoot demoAdvState 4 (by decide)).1,
   (SnapshotAtTs_staleRoot demoAdvState 4 (by decide)).2⟩

/-- C6 (amended): the timestamp validation of `Insert` rejects an entry
with `InvalidTimestamp` exactly when its timestamp is zero or strictly
below the current root timestamp; every entry with `0 < ts` and
`ts ≥ rootTs` passes the validation. -/
theorem insertTsCheck_invalidTimestamp_iff (rootTs ts : Nat) :
    insertTsCheck rootTs ts = some TreeErr.invalidTimestamp ↔
      (ts = 0 ∨ ts < rootTs) := by
  by_cases h0 : ts = 0
  · simp [insertTsCheck, h0]
  · by_cases h1 : ts < rootTs
    · simp [insertTsCheck, h0, h1]
    · simp [insertTsCheck, h0, h1]

/-- A freshly opened empty tree with the given write-buffer capacity. -/
def freshState (capacity : Nat) : TreeState :=
  { rootID := PageNone, lastSnapshotID := PageNone, rootTs := 0,
    lastSnapshotTs := 0, indexedEntryCount := 0, mutated := false,
    locked := false, depth := 0, nSplits := 0, wbPages := [],
    wbCapacity := capacity, headHistoryPageID := PageNone,
    tailHistoryPageID := PageNone, bufferedHistoryData := 0, treeLog := [],
    historyLog := [], numPages := 0, stalePages := 0 }

/-- C6 counterexample: on a fresh tree (`rootTs = 0`), the entry
`("a", "1", ts 0)` satisfies `ts ≥ rootTs` and its value fits
`MaxEntrySize`, yet `Insert` returns `InvalidTimestamp` (the source also
rejects `ts = 0`, tbtree.go:363-365). -/
theorem insert_zero_ts_counterexample :
    (freshState 64).rootTs ≤ 0 ∧
    ([49] : List Nat).length ≤ MaxEntrySize ∧
    (Insert ⟨[97], [49], 0, OffsetNone, 0⟩).run (freshState 64) =
      EStateM.Result.error TreeErr.invalidTimestamp (freshState 64) :=
  ⟨by decide, by decide, rfl⟩

/-- C9: whenever the last persisted snapshot root is `PageNone` (no flush
has ever completed), `History` fails with `KeyNotFound` rather than
`NoSnapshotAvailable`, for every key and paging arguments, while
`ReadSnapshot` itself surfaces `NoSnapshotAvailable`; the in-memory root
(`rootID`) is irrelevant. -/
theorem History_keyNotFound_without_snapshot (s : TreeState)
    (key : List Nat) (offset : Nat) (descOrder : Bool) (limit : Nat)
    (h : s.lastSnapshotID = PageNone) :
    (History key offset descOrder limit).run s =
      EStateM.Result.error TreeErr.keyNotFound s ∧
    ReadSnapshot.run s =
      EStateM.Result.error TreeErr.noSnapshotAvailable s := by
  have hsnap : snapshotRead s =
      EStateM.Result.error TreeErr.noSnapshotAvailable s := by
    show snapshotRead.run s = _
    simp only [snapshotRead, EStateM.run, bind, EStateM.bind, get, getThe,
      MonadStateOf.get, EStateM.get]
    rw [if_pos h]; rfl
  refine ⟨?_, hsnap⟩
  simp only [History, EStateM.run, bind, EStateM.bind, tryCatch,
    tryCatchThe, MonadExceptOf.tryCatch, EStateM.tryCatch, ReadSnapshot]
  rw [hsnap]
  rfl

/-- The tree state right after inserting key "a" into a fresh tree (the
key is present in the in-memory root; nothing was ever flushed). -/
def c9State : TreeState :=
  match (Insert ⟨[97], [49], 1, OffsetNone, 0⟩).run (freshState 64) with
  | .ok _ s => s
  | .error _ s => s

/-- Witness for `History_keyNotFound_without_snapshot` on the state after
an insert into a fresh tree. -/
theorem History_keyNotFound_without_snapshot_witness :
    c9State.lastSnapshotID = PageNone ∧ c9State.mutated = true ∧
    (History [97] 0 true 10).run c9State =
      EStateM.Result.error TreeErr.keyNotFound c9State ∧
    ReadSnapshot.run c9State =
      EStateM.Result.error TreeErr.noSnapshotAvailable c9State :=
  ⟨by decide, by decide,
   (History_keyNotFound_without_snapshot c9State [97] 0 true 10
      (by decide)).1,
   (History_keyNotFound_without_snapshot c9State [97] 0 true 10
      (by decide)).2⟩

/-- The specification-side description of recovery ("the first that
yields a valid last commit entry wins"): the first directory entry in
listing order that matches the `tree_<ts>` pattern and recovers
successfully. -/
def firstRecoverable {H : Type} (recoverSnap : List Char → Nat → Option H)
    (entries : List DirEntry) : Option H :=
  entries.findSome? fun e =>
    if e.isDir then
      match parseSnapDirName e.name with
      | some ts => recoverSnap e.name ts
      | none => none
    else none

theorem recoverSnd_eq_firstRecoverable {H : Type}
    (recoverSnap : List Char → Nat → Option H) (entries : List DirEntry)
    (attempts : Nat) :
    (recoverLatestValidTreeSnapshot recoverSnap entries attempts).2 =
      firstRecoverable recoverSnap entries := by
  induction entries generalizing attempts with
  | nil => rfl
  | cons e rest ih =>
    cases hd : e.isDir with
    | false =>
        simp only [recoverLatestValidTreeSnapshot, firstRecoverable,
          List.findSome?_cons, hd]
        simpa [firstRecoverable] using ih attempts
    | true =>
        simp only [recoverLatestValidTreeSnapshot, firstRecoverable,
          List.findSome?_cons, hd]
        cases hp : parseSnapDirName e.name with
        | none => simpa [firstRecoverable] using ih attempts
        | some ts =>
          cases hr : recoverSnap e.name ts with
          | none =>
              simp only [hr]
              simpa [firstRecoverable] using ih (attempts + 1)
          | some h => simp [hr]

/-- C5 (amended): the snapshot directories are tried in the order
`readDir` returned them, not sorted by descending ts: for every directory
listing and recovery outcome, the recovered snapshot is the first entry in
listing order that matches `tree_<ts>` and recovers successfully. -/
theorem recoverLatestValidTreeSnapshot_first_wins {H : Type}
    (recoverSnap : List Char → Nat → Option H) (entries : List DirEntry) :
    (recoverLatestValidTreeSnapshot recoverSnap entries 0).2 =
      firstRecoverable recoverSnap entries :=
  recoverSnd_eq_firstRecoverable recoverSnap entries 0

/-- A listing with two valid snapshot directories, tree_1 before
tree_2. -/
def c5Entries : List DirEntry :=
  [⟨"tree_1".toList, true⟩, ⟨"tree_2".toList, true⟩]

/-- A recovery callback for which every snapshot directory recovers,
remembering which one was recovered. -/
def c5Recover : List Char → Nat → Option (List Char × Nat) :=
  fun n ts => some (n, ts)

/-- The claim's property: the recovered snapshot carries the greatest ts
among the directories that match the pattern and recover. -/
def recoveredIsGreatest {H : Type} (r : List Char → Nat → Option H)
    (entries : List DirEntry) (tsOf : H → Nat) : Prop :=
  ∀ h, (recoverLatestValidTreeSnapshot r entries 0).2 = some h →
    ∀ e ∈ entries, e.isDir = true →
      ∀ ts, parseSnapDirName e.name = some ts →
        (r e.name ts).isSome = true → ts ≤ tsOf h

/-- C5 counterexample: with directories tree_1 and tree_2 in listing
order and both recoverable, the scan recovers tree_1 (ts 1), not the one
with the greatest ts (tree_2, ts 2). -/
theorem recover_order_counterexample :
    (recoverLatestValidTreeSnapshot c5Recover c5Entries 0).2 =
      some ("tree_1".toList, 1) ∧
    ¬ recoveredIsGreatest c5Recover c5Entries Prod.snd := by
  refine ⟨by decide, fun hgr => ?_⟩
  have h2 := hgr ("tree_1".toList, 1) (by decide)
      ⟨"tree_2".toList, true⟩ (by simp [c5Entries]) rfl 2 (by decide)
      (by decide)
  exact absurd h2 (by decide)

/-- C3: with snapshot directories present but every recovery attempt
failing, `Open` does not complete normally: the warning logged at
tbtree.go:153-158 interpolates `t.Path()` while `t` is still nil, so the
call dereferences a nil pointer and panics instead of returning the empty
tree. -/
theorem open_failed_recovery_panics :
    openRecoveryPhase [DirEntry.mk "tree_1".toList true]
      (fun _ _ => (none : Option (List Char))) (fun p => p) =
      OpenOutcome.panicNilDeref := by decide

/-- Error projection of a run result. -/
def resultErr {α : Type} : EStateM.Result TreeErr TreeState α → Option TreeErr
  | .error e _ => some e
  | .ok _ _ => none

/-- Value projection of a run result. -/
def resultVal {α : Type} : EStateM.Result TreeErr TreeState α → Option α
  | .ok a _ => some a
  | .error _ _ => none

/-- Scenario 3 of the spec on a freshly opened empty tree: insert key "a"
with value "1" at ts 1, value "2" at ts 2, value "3" at ts 3, with no
intervening Flush. -/
def c2Scenario : TreeM Unit := do
  Insert ⟨[97], [49], 1, OffsetNone, 0⟩
  Insert ⟨[97], [50], 2, OffsetNone, 0⟩
  Insert ⟨[97], [51], 3, OffsetNone, 0⟩

/-- C2 counterexample: after the three inserts (which all succeed) and no
flush, `GetBetween("a", 1, 2)` does not return `("2", 2, 2)` and
`GetBetween("a", 4, 5)` does not fail with `KeyNotFound`: `GetBetween`
opens a read snapshot, and no snapshot has ever been persisted. -/
theorem getBetween_unflushed_counterexample :
    resultErr (c2Scenario.run (freshState 64)) = none ∧
    resultVal ((do c2Scenario; GetBetween [97] 1 2).run (freshState 64)) ≠
      some ([50], 2, 2) ∧
    resultErr ((do c2Scenario; GetBetween [97] 4 5).run (freshState 64)) ≠
      some TreeErr.keyNotFound :=
  ⟨by decide, by decide, by decide⟩

/-- C2 (amended): on a freshly opened empty tree, after the three inserts
of scenario 3 with no intervening Flush, both `GetBetween("a", 1, 2)` and
`GetBetween("a", 4, 5)` fail with `NoSnapshotAvailable` (the last
persisted snapshot root is still `PageNone`, so the read snapshot that
`GetBetween` opens does not exist). -/
theorem getBetween_unflushed_noSnapshot :
    resultErr (c2Scenario.run (freshState 64)) = none ∧
    resultErr ((do c2Scenario; GetBetween [97] 1 2).run (freshState 64)) =
      some TreeErr.noSnapshotAvailable ∧
    resultErr ((do c2Scenario; GetBetween [97] 4 5).run (freshState 64)) =
      some TreeErr.noSnapshotAvailable :=
  ⟨by decide, by decide, by decide⟩

/-! ## C4: no in-memory ids in flushed page images -/

/-- The child page ids stored in a page image (inner pages only). -/
def pageChildIDs : Page → List Nat
  | .inner slots _ _ _ => slots.map (fun s => s.child)
  | _ => []

/-- Every child id of every write-buffer page is either an in-memory id
or at most `b` (persistent ids assigned so far are bounded by the log
size). -/
def wfChildB (wb : List Page) (b : Nat) : Prop :=
  ∀ pg ∈ wb, ∀ cid ∈ pageChildIDs pg, isMemPage cid = true ∨ cid ≤ b

instance (wb : List Page) (b : Nat) : Decidable (wfChildB wb b) := by
  unfold wfChildB; infer_instance

/-- Every page image appended at cumulative offset `o` has all its child
ids at most `o`: each child was fully written before its parent. -/
def tailChildrenBounded : Nat → List TreeLogRec → Prop
  | _, [] => True
  | o, .page pg :: rest =>
      (∀ cid ∈ pageChildIDs pg, cid ≤ o) ∧
      tailChildrenBounded (o + PageSize) rest
  | o, .commit _ :: rest => tailChildrenBounded (o + CommitEntrySize) rest

instance : ∀ (o : Nat) (tail : List TreeLogRec),
    Decidable (tailChildrenBounded o tail)
  | _, [] => .isTrue trivial
  | o, .page pg :: rest =>
      have : Decidable ((∀ cid ∈ pageChildIDs pg, cid ≤ o) ∧
          tailChildrenBounded (o + PageSize) rest) :=
        @instDecidableAnd _ _ _ (instDecidableTailChildrenBounded _ rest)
      by unfold tailChildrenBounded; exact this
  | o, .commit _ :: rest =>
      have : Decidable (tailChildrenBounded (o + CommitEntrySize) rest) :=
        instDecidableTailChildrenBounded _ rest
      by unfold tailChildrenBounded; exact this

/-- Every slot of the page of `ppid` at index `i` holds a child id at
most `b`. -/
def slotChildLe (wb : List Page) (ppid i b : Nat) : Prop :=
  ∀ slots sp r c, wb.get? (ppid - memBit) = some (.inner slots sp r c) →
    ∀ s, slots.get? i = some s → s.child ≤ b

/-- How one inner slot may change during a flush: unchanged, or rewritten
to a persistent id at most `b` under the same separator. -/
def slotRel (b : Nat) (s s' : InnerSlot) : Prop :=
  s' = s ∨ (s'.key = s.key ∧ s'.child ≤ b)

/-- How one write-buffer page may change during a flush: only inner
pages change, and only slot by slot as `slotRel`. -/
def pageRel (b : Nat) : Page → Page → Prop
  | .inner slots sp r c, .inner slots' sp' r' c' =>
      sp' = sp ∧ r' = r ∧ c' = c ∧ List.Forall₂ (slotRel b) slots slots'
  | pg, pg' => pg' = pg

/-- How the write buffer may change during a flush. -/
def wbDelta (b : Nat) (wb wb' : List Page) : Prop :=
  List.Forall₂ (pageRel b) wb wb'

theorem slotRel_refl (b : Nat) (s : InnerSlot) : slotRel b s s := Or.inl rfl

theorem pageRel_refl (b : Nat) (pg : Page) : pageRel b pg pg := by
  cases pg with
  | inner slots sp r c =>
      exact ⟨rfl, rfl, rfl, List.forall₂_same.2 fun s _ => slotRel_refl b s⟩
  | leaf es r c => rfl
  | hist es nx => rfl

theorem wbDelta_refl (b : Nat) (wb : List Page) : wbDelta b wb wb :=
  List.forall₂_same.2 fun pg _ => pageRel_refl b pg

theorem slotRel_mono {b b' : Nat} (h : b ≤ b') {s s' : InnerSlot}
    (hr : slotRel b s s') : slotRel b' s s' := by
  cases hr with
  | inl h1 => exact Or.inl h1
  | inr h1 => exact Or.inr ⟨h1.1, le_trans h1.2 h⟩

theorem pageRel_mono {b b' : Nat} (h : b ≤ b') {pg pg' : Page}
    (hr : pageRel b pg pg') : pageRel b' pg pg' := by
  cases pg with
  | inner slots sp r c =>
    cases pg' with
    | inner slots' sp' r' c' =>
        exact ⟨hr.1, hr.2.1, hr.2.2.1,
          hr.2.2.2.imp fun _ _ h1 => slotRel_mono h h1⟩
    | leaf es r2 c2 => exact hr
    | hist es nx => exact hr
  | leaf es r2 c2 => exact hr
  | hist es nx => exact hr

theorem wbDelta_mono {b b' : Nat} (h : b ≤ b') {wb wb' : List Page}
    (hr : wbDelta b wb wb') : wbDelta b' wb wb' :=
  hr.imp fun _ _ h1 => pageRel_mono h h1

theorem slotRel_trans {b : Nat} {s1 s2 s3 : InnerSlot}
    (h1 : slotRel b s1 s2) (h2 : slotRel b s2 s3) : slotRel b s1 s3 := by
  cases h2 with
  | inl he => exact he ▸ h1
  | inr hp =>
    cases h1 with
    | inl he => exact Or.inr ⟨by rw [hp.1, he], hp.2⟩
    | inr hp1 => exact Or.inr ⟨by rw [hp.1, hp1.1], hp.2⟩

theorem forall₂_slotRel_trans {b : Nat} :
    ∀ {l1 l2 l3 : List InnerSlot}, List.Forall₂ (slotRel b) l1 l2 →
      List.Forall₂ (slotRel b) l2 l3 → List.Forall₂ (slotRel b) l1 l3 := by
  intro l1 l2 l3 h1 h2
  induction h1 generalizing l3 with
  | nil => cases h2; exact .nil
  | cons hr _ ih =>
    cases h2 with
    | cons hr2 hrest2 => exact .cons (slotRel_trans hr hr2) (ih hrest2)

theorem pageRel_trans {b : Nat} {p1 p2 p3 : Page}
    (h1 : pageRel b p1 p2) (h2 : pageRel b p2 p3) : pageRel b p1 p3 := by
  cases p1 with
  | inner slots1 sp1 r1 c1 =>
    cases p2 with
    | inner slots2 sp2 r2 c2 =>
      cases p3 with
      | inner slots3 sp3 r3 c3 =>
          exact ⟨by rw [h2.1, h1.1], by rw [h2.2.1, h1.2.1],
            by rw [h2.2.2.1, h1.2.2.1],
            forall₂_slotRel_trans h1.2.2.2 h2.2.2.2⟩
      | leaf es r c => exact absurd h2 (by intro hc; cases hc)
      | hist es nx => exact absurd h2 (by intro hc; cases hc)
    | leaf es r c => exact absurd h1 (by intro hc; cases hc)
    | hist es nx => exact absurd h1 (by intro hc; cases hc)
  | leaf es r c =>
    have h1e : p2 = .leaf es r c := h1
    subst h1e
    exact h2
  | hist es nx =>
    have h1e : p2 = .hist es nx := h1
    subst h1e
    exact h2

theorem wbDelta_trans {b : Nat} :
    ∀ {w1 w2 w3 : List Page}, wbDelta b w1 w2 → wbDelta b w2 w3 →
      wbDelta b w1 w3 := by
  intro w1 w2 w3 h1 h2
  induction h1 generalizing w3 with
  | nil => cases h2; exact .nil
  | cons hr _ ih =>
    cases h2 with
    | cons hr2 hrest2 => exact .cons (pageRel_trans hr hr2) (ih hrest2)

theorem forall₂_get?_right {α β : Type} {R : α → β → Prop} :
    ∀ {l : List α} {l' : List β}, List.Forall₂ R l l' →
      ∀ {k : Nat} {y : β}, l'.get? k = some y →
        ∃ x, l.get? k = some x ∧ R x y := by
  intro l l' h
  induction h with
  | nil => intro k y hy; cases hy
  | cons hr _ ih =>
    intro k y hy
    cases k with
    | zero => cases hy; exact ⟨_, rfl, hr⟩
    | succ k => exact ih hy

theorem forall₂_get?_left {α β : Type} {R : α → β → Prop} :
    ∀ {l : List α} {l' : List β}, List.Forall₂ R l l' →
      ∀ {k : Nat} {x : α}, l.get? k = some x →
        ∃ y, l'.get? k = some y ∧ R x y := by
  intro l l' h
  induction h with
  | nil => intro k x hx; cases hx
  | cons hr _ ih =>
    intro k x hx
    cases k with
    | zero => cases hx; exact ⟨_, rfl, hr⟩
    | succ k => exact ih hx

theorem logSize_append (l1 l2 : List TreeLogRec) :
    logSize (l1 ++ l2) = logSize l1 + logSize l2 := by
  simp [logSize]

theorem tailChildrenBounded_append :
    ∀ {t1 t2 : List TreeLogRec} {b : Nat}, tailChildrenBounded b t1 →
      tailChildrenBounded (b + logSize t1) t2 →
      tailChildrenBounded b (t1 ++ t2) := by
  intro t1
  induction t1 with
  | nil => intro t2 b _ h2; simpa [logSize] using h2
  | cons r rest ih =>
    intro t2 b h1 h2
    cases r with
    | page pg =>
        refine ⟨h1.1, ih h1.2 ?_⟩
        have : b + logSize (TreeLogRec.page pg :: rest) =
            b + PageSize + logSize rest := by
          simp [logSize, recSize]; omega
        rw [this] at h2
        exact h2
    | commit e =>
        refine ih h1 ?_
        have : b + logSize (TreeLogRec.commit e :: rest) =
            b + CommitEntrySize + logSize rest := by
          simp [logSize, recSize]; omega
        rw [this] at h2
        exact h2

theorem tailChildrenBounded_mem :
    ∀ {tail : List TreeLogRec} {b : Nat}, tailChildrenBounded b tail →
      ∀ {pg : Page}, TreeLogRec.page pg ∈ tail →
        ∀ cid ∈ pageChildIDs pg, cid ≤ b + logSize tail := by
  intro tail
  induction tail with
  | nil => intro b _ pg hm; cases hm
  | cons r rest ih =>
    intro b hb pg hm cid hcid
    cases r with
    | page pg' =>
      rcases List.mem_cons.1 hm with he | hm'
      · cases he
        calc cid ≤ b := hb.1 cid hcid
          _ ≤ b + logSize (TreeLogRec.page pg :: rest) := Nat.le_add_right _ _
      · have := ih hb.2 hm' cid hcid
        have h2 : b + PageSize + logSize rest =
            b + logSize (TreeLogRec.page pg' :: rest) := by
          simp [logSize, recSize]; omega
        omega
    | commit e =>
      rcases List.mem_cons.1 hm with he | hm'
      · cases he
      · have := ih hb hm' cid hcid
        have h2 : b + CommitEntrySize + logSize rest =
            b + logSize (TreeLogRec.commit e :: rest) := by
          simp [logSize, recSize]; omega
        omega

theorem wfChildB_mono {wb : List Page} {b b' : Nat} (hwf : wfChildB wb b)
    (h : b ≤ b') : wfChildB wb b' := by
  intro pg hm cid hc
  rcases hwf pg hm cid hc with hmem | hle
  · exact Or.inl hmem
  · exact Or.inr (le_trans hle h)

theorem slotChildLe_mono {wb : List Page} {p i b b' : Nat}
    (hs : slotChildLe wb p i b) (h : b ≤ b') : slotChildLe wb p i b' := by
  intro slots sp r c hget s hsg
  exact le_trans (hs slots sp r c hget s hsg) h

theorem get?_set_self {α : Type} :
    ∀ (l : List α) (n : Nat) (a : α), n < l.length →
      (l.set n a).get? n = some a := by
  intro l
  induction l with
  | nil => intro n a h; simp at h
  | cons x xs ih =>
    intro n a h
    cases n with
    | zero => rfl
    | succ n => exact ih n a (by simpa using h)

theorem get?_some_lt {α : Type} :
    ∀ {l : List α} {n : Nat} {a : α}, l.get? n = some a → n < l.length := by
  intro l
  induction l with
  | nil => intro n a h; cases h
  | cons x xs ih =>
    intro n a h
    cases n with
    | zero => simp
    | succ n => simpa using ih h

theorem forall₂_slotRel_set {b v : Nat} (hv : v ≤ b) :
    ∀ (slots : List InnerSlot) (i : Nat) (s' : InnerSlot),
      slots.get? i = some s' →
      List.Forall₂ (slotRel b) slots (slots.set i ⟨s'.key, v⟩) := by
  intro slots
  induction slots with
  | nil => intro i s' h; cases h
  | cons s rest ih =>
    intro i s' h
    cases i with
    | zero =>
        cases h
        exact .cons (Or.inr ⟨rfl, hv⟩)
          (List.forall₂_same.2 fun x _ => slotRel_refl b x)
    | succ i => exact .cons (slotRel_refl b s) (ih i s' h)

theorem forall₂_slotRel_setChildAt {b v : Nat} (hv : v ≤ b)
    (slots : List InnerSlot) (i : Nat) :
    List.Forall₂ (slotRel b) slots (setChildAt slots i v) := by
  unfold setChildAt
  cases hg : slots.get? i with
  | none => exact List.forall₂_same.2 fun x _ => slotRel_refl b x
  | some s' => exact forall₂_slotRel_set hv slots i s' hg

theorem forall₂_pageRel_set {b : Nat} :
    ∀ (wb : List Page) (k : Nat) (pg pg' : Page),
      wb.get? k = some pg → pageRel b pg pg' →
      wbDelta b wb (wb.set k pg') := by
  intro wb
  induction wb with
  | nil => intro k pg pg' h _; cases h
  | cons x xs ih =>
    intro k pg pg' h hrel
    cases k with
    | zero =>
        cases h
        exact .cons hrel (wbDelta_refl b xs)
    | succ k => exact .cons (pageRel_refl b x) (ih k pg pg' h hrel)

theorem wbDelta_setChildP {b v : Nat} (hv : v ≤ b) (wb : List Page)
    (p i : Nat) : wbDelta b wb (wbSetChildP wb p i v) := by
  unfold wbSetChildP
  cases hg : wb.get? (p - memBit) with
  | none => exact wbDelta_refl b wb
  | some pg =>
    cases pg with
    | inner slots sp r c =>
        exact forall₂_pageRel_set wb _ _ _ hg
          ⟨rfl, rfl, rfl, forall₂_slotRel_setChildAt hv slots i⟩
    | leaf es r c => exact wbDelta_refl b wb
    | hist es nx => exact wbDelta_refl b wb

theorem slotChildLe_of_delta {b : Nat} {wb wb' : List Page}
    (hd : wbDelta b wb wb') {p i : Nat}
    (hs : slotChildLe wb p i b) : slotChildLe wb' p i b := by
  intro slots' sp' r' c' hget' s' hs'
  obtain ⟨pg, hget, hrel⟩ := forall₂_get?_right hd hget'
  cases pg with
  | inner slots sp r c =>
      obtain ⟨s, hsg, hsr⟩ := forall₂_get?_right hrel.2.2.2 hs'
      cases hsr with
      | inl he => exact he ▸ hs slots sp r c hget s hsg
      | inr hp => exact hp.2
  | leaf es r c => exact Page.noConfusion hrel
  | hist es nx => exact Page.noConfusion hrel

theorem wfChildB_of_delta {b : Nat} {wb wb' : List Page}
    (hwf : wfChildB wb b) (hd : wbDelta b wb wb') : wfChildB wb' b := by
  intro pg' hmem' cid hcid
  obtain ⟨k, hget'⟩ := List.mem_iff_get?.1 hmem'
  obtain ⟨pg, hget, hrel⟩ := forall₂_get?_right hd hget'
  have hmem : pg ∈ wb := List.get?_mem hget
  cases pg' with
  | inner slots' sp' r' c' =>
    cases pg with
    | inner slots sp r c =>
      simp only [pageChildIDs, List.mem_map] at hcid
      obtain ⟨s', hs'mem, hs'c⟩ := hcid
      obtain ⟨k2, hs'g⟩ := List.mem_iff_get?.1 hs'mem
      obtain ⟨s0, hs0, hsr⟩ := forall₂_get?_right hrel.2.2.2 hs'g
      cases hsr with
      | inl he =>
          refine hwf _ hmem cid ?_
          simp only [pageChildIDs, List.mem_map]
          exact ⟨s0, List.get?_mem hs0, by rw [← hs'c, he]⟩
      | inr hp => exact Or.inr (by rw [← hs'c]; exact hp.2)
    | leaf es r c => exact Page.noConfusion hrel
    | hist es nx => exact Page.noConfusion hrel
  | leaf es r c => simp [pageChildIDs] at hcid
  | hist es nx => simp [pageChildIDs] at hcid

theorem wbGetP_eq_some {wb : List Page} {id : Nat} {pg : Page}
    (h : wbGetP wb id = some pg) :
    isMemPage id = true ∧ wb.get? (id - memBit) = some pg := by
  unfold wbGetP at h
  by_cases hm : isMemPage id = true
  · rw [if_pos hm] at h; exact ⟨hm, h⟩
  · rw [if_neg hm] at h; cases h

theorem slotChildLe_setChildP {b v : Nat} (hv : v ≤ b) (wb : List Page)
    (p i : Nat) : slotChildLe (wbSetChildP wb p i v) p i b := by
  intro slots2 sp r c hget2 s hs
  unfold wbSetChildP at hget2
  cases hg : wb.get? (p - memBit) with
  | none => rw [hg] at hget2; rw [hg] at hget2; cases hget2
  | some pg =>
    rw [hg] at hget2
    cases pg with
    | inner slots1 sp1 r1 c1 =>
      have hlt : p - memBit < wb.length := get?_some_lt hg
      rw [get?_set_self wb (p - memBit) _ hlt] at hget2
      have h2 := hget2
      injection h2 with h3
      cases h3
      unfold setChildAt at hs
      cases hg2 : slots1.get? i with
      | none => rw [hg2] at hs; rw [hg2] at hs; cases hs
      | some s1 =>
        rw [hg2] at hs
        have hlt2 : i < slots1.length := get?_some_lt hg2
        rw [get?_set_self slots1 i _ hlt2] at hs
        injection hs with hs1
        rw [← hs1]
        exact hv
    | leaf es1 r1 c1 =>
        rw [hg] at hget2
        cases hget2
    | hist es1 nx => rw [hg] at hget2; cases hget2

theorem flushChildren_ok
    (rec : Nat → List Page → List TreeLogRec →
      Except TreeErr (FlushRes × List Page × List TreeLogRec))
    (Hrec : ∀ pid wb log res wb2 log2,
      rec pid wb log = .ok (res, wb2, log2) →
      wfChildB wb (logSize log) →
      ∃ tail, log2 = log ++ tail ∧
        res.rootID = logSize log2 ∧
        tailChildrenBounded (logSize log) tail ∧
        wbDelta (logSize log2) wb wb2) :
    ∀ (idxs : List Nat) (ppid : Nat) (acc : Nat × Nat × Nat)
      (wb : List Page) (log : List TreeLogRec) (acc' : Nat × Nat × Nat)
      (wb' : List Page) (log' : List TreeLogRec),
      flushChildren rec ppid false idxs acc wb log = .ok (acc', wb', log') →
      wfChildB wb (logSize log) →
      ∃ tail, log' = log ++ tail ∧
        tailChildrenBounded (logSize log) tail ∧
        wbDelta (logSize log') wb wb' ∧
        ∀ i ∈ idxs, slotChildLe wb' ppid i (logSize log') := by
  intro idxs
  induction idxs with
  | nil =>
    intro ppid acc wb log acc' wb' log' hrun hwf
    unfold flushChildren at hrun
    injection hrun with h
    injection h with h1 h2
    injection h2 with h3 h4
    subst h3; subst h4
    exact ⟨[], by simp, trivial, wbDelta_refl _ _, by simp⟩
  | cons i rest ih =>
    intro ppid acc wb log acc' wb' log' hrun hwf
    unfold flushChildren at hrun
    split at hrun
    case h_2 => cases hrun
    case h_1 slots sp r c hgp =>
      dsimp only at hrun
      split at hrun
      · -- non-mem child: skipped
        next hskip =>
        obtain ⟨tail, hlog, hbnd, hdelta, hslots⟩ :=
          ih ppid acc wb log acc' wb' log' hrun hwf
        refine ⟨tail, hlog, hbnd, hdelta, ?_⟩
        intro j hj
        rcases List.mem_cons.1 hj with rfl | hj'
        · have hle : slotChildLe wb ppid j (logSize log) := by
            intro slots0 sp0 r0 c0 hget0 s hs0
            obtain ⟨hm, hget⟩ := wbGetP_eq_some hgp
            have heq : Page.inner slots sp r c =
                Page.inner slots0 sp0 r0 c0 := by
              have h0 := hget.symm.trans hget0
              injection h0
            injection heq with h1 h2 h3 h4
            subst h1; subst h2; subst h3; subst h4
            have hc : childPageAt slots j = s.child := by
              unfold childPageAt; rw [hs0]
            have hwfc := hwf _ (List.get?_mem hget) s.child
              (by simp only [pageChildIDs, List.mem_map]
                  exact ⟨s, List.get?_mem hs0, rfl⟩)
            rcases hwfc with hmem2 | hle2
            · exact absurd (hc ▸ hmem2) hskip.1
            · exact hle2
          have hgrow : logSize log ≤ logSize log' := by
            rw [hlog, logSize_append]; omega
          exact slotChildLe_of_delta hdelta (slotChildLe_mono hle hgrow)
        · exact hslots j hj'
      · -- mem child: flushed through rec, slot rewritten
        next hskip =>
        split at hrun
        · cases hrun
        · next cres wb1 log1 hr =>
          obtain ⟨t1, hlog1, hroot1, hbnd1, hdelta1⟩ :=
            Hrec _ _ _ _ _ _ hr hwf
          have hgrow1 : logSize log ≤ logSize log1 := by
            rw [hlog1, logSize_append]; omega
          have hwf1 : wfChildB wb1 (logSize log1) :=
            wfChildB_of_delta (wfChildB_mono hwf hgrow1) hdelta1
          have hd12 : wbDelta (logSize log1) wb1
              (wbSetChildP wb1 ppid i cres.rootID) :=
            wbDelta_setChildP (le_of_eq hroot1) wb1 ppid i
          have hwf2 : wfChildB (wbSetChildP wb1 ppid i cres.rootID)
              (logSize log1) := wfChildB_of_delta hwf1 hd12
          obtain ⟨t2, hlog2, hbnd2, hdelta2, hslots2⟩ :=
            ih ppid _ _ log1 acc' wb' log' hrun hwf2
          have hgrow2 : logSize log1 ≤ logSize log' := by
            rw [hlog2, logSize_append]; omega
          refine ⟨t1 ++ t2, ?_, ?_, ?_, ?_⟩
          · rw [hlog2, hlog1, List.append_assoc]
          · refine tailChildrenBounded_append hbnd1 ?_
            have he : logSize log + logSize t1 = logSize log1 := by
              rw [hlog1, logSize_append]
            rw [he]
            exact hbnd2
          · exact wbDelta_trans (wbDelta_mono hgrow2 hdelta1)
              (wbDelta_trans (wbDelta_mono hgrow2 hd12) hdelta2)
          · intro j hj
            rcases List.mem_cons.1 hj with rfl | hj'
            · exact slotChildLe_of_delta hdelta2
                (slotChildLe_setChildP (hroot1 ▸ hgrow2) wb1 ppid j)
            · exact hslots2 j hj'
theorem flushTreeLogF_ok :
    ∀ (fuel : Nat) (pid : Nat) (wb : List Page) (log : List TreeLogRec)
      (res : FlushRes) (wb' : List Page) (log' : List TreeLogRec),
      flushTreeLogF fuel pid false wb log = .ok (res, wb', log') →
      wfChildB wb (logSize log) →
      ∃ tail, log' = log ++ tail ∧
        res.rootID = logSize log' ∧
        tailChildrenBounded (logSize log) tail ∧
        wbDelta (logSize log') wb wb' := by
  intro fuel
  induction fuel with
  | zero =>
    intro pid wb log res wb' log' hrun _
    cases hrun
  | succ fuel ih =>
    intro pid wb log res wb' log' hrun hwf
    unfold flushTreeLogF at hrun
    split at hrun
    · cases hrun
    next hguard =>
    have hm : isMemPage pid = true := by
      by_contra hmm
      exact hguard ⟨hmm, by simp⟩
    split at hrun
    case h_3 => cases hrun
    case h_4 => cases hrun
    case h_1 es r0 c0 hg =>
      dsimp only [appendPageRec] at hrun
      injection hrun with h
      injection h with h1 h2
      injection h2 with h3 h4
      subst h1; subst h3; subst h4
      refine ⟨[.page (storedPage (.leaf es r0 c0))], rfl, ?_, ?_, ?_⟩
      · simp [logSize_append, logSize, recSize]
      · exact ⟨by simp [pageChildIDs, storedPage], trivial⟩
      · exact wbDelta_refl _ _
    case h_2 slots sp r c hg =>
      split at hrun
      · cases hrun
      next acc wb1 log1 hc =>
      split at hrun
      · cases hrun
      next pg1 hg1 =>
      dsimp only [appendPageRec] at hrun
      injection hrun with h
      injection h with h1 h2
      injection h2 with h3 h4
      subst h1; subst h3; subst h4
      obtain ⟨t1, hlog1, hbnd1, hdelta1, hslots⟩ :=
        flushChildren_ok (fun cid => flushTreeLogF fuel cid false)
          (fun p w l r2 w2 l2 h2 hw => ih p w l r2 w2 l2 h2 hw)
          (List.range slots.length) pid (0, 0, 0) wb log acc wb1 log1 hc hwf
      have hgetwb : wb.get? (pid - memBit) =
          some (Page.inner slots sp r c) := by
        unfold getWritePageP at hg
        rw [if_pos hm] at hg
        exact (wbGetP_eq_some hg).2
      have hgetwb1 : wb1.get? (pid - memBit) = some pg1 := by
        unfold getWritePageP at hg1
        rw [if_pos hm] at hg1
        exact (wbGetP_eq_some hg1).2
      obtain ⟨y, hy, hyrel⟩ := forall₂_get?_left hdelta1 hgetwb
      have hypg : y = pg1 := by
        have := hy.symm.trans hgetwb1
        injection this
      subst hypg
      cases y with
      | leaf es1 r1 c1 => exact Page.noConfusion hyrel
      | hist es1 nx1 => exact Page.noConfusion hyrel
      | inner slots1 sp1 r1 c1 =>
        have hlen : slots.length = slots1.length :=
          hyrel.2.2.2.length_eq
        have hparent : ∀ cid ∈ pageChildIDs
            (storedPage (Page.inner slots1 sp1 r1 c1)),
            cid ≤ logSize log1 := by
          intro cid hcid
          simp only [storedPage, pageChildIDs, List.mem_map] at hcid
          obtain ⟨s', hs'mem, hs'c⟩ := hcid
          obtain ⟨k2, hs'g⟩ := List.mem_iff_get?.1 hs'mem
          have hk2 : k2 < slots.length := by
            rw [hlen]; exact get?_some_lt hs'g
          have hsl := hslots k2 (List.mem_range.2 hk2)
          rw [← hs'c]
          exact hsl slots1 sp1 r1 c1 hgetwb1 s' hs'g
        refine ⟨t1 ++ [.page (storedPage (Page.inner slots1 sp1 r1 c1))],
          ?_, ?_, ?_, ?_⟩
        · rw [hlog1, List.append_assoc]
        · simp [logSize_append, logSize, recSize]
        · refine tailChildrenBounded_append hbnd1 ?_
          have he : logSize log + logSize t1 = logSize log1 := by
            rw [hlog1, logSize_append]
          rw [he]
          exact ⟨hparent, trivial⟩
        · refine wbDelta_mono ?_ hdelta1
          simp [logSize_append, logSize, recSize]
/-- C4 (amended): after flushing an in-memory root via `flushTreeLog`, no
in-memory page id appears in any page image appended to the tree log: for
every flushed inner page, each of its `NumEntries` child slots (the
left-most child included) that held an in-memory id has been rewritten,
before the parent is appended, to the persistent id assigned when that
child was appended — every child id in an appended image is at most the
appending page's own start offset (children are appended before their
parent, in post-order), hence not an in-memory id. -/
theorem flushTreeLog_rewrites_all_child_slots
    (fuel pid : Nat) (wb : List Page) (log : List TreeLogRec)
    (res : FlushRes) (wb' : List Page) (log' : List TreeLogRec)
    (hrun : flushTreeLogF fuel pid false wb log = .ok (res, wb', log'))
    (hwf : wfChildB wb (logSize log))
    (hsz : logSize log' < memBit) :
    ∃ tail, log' = log ++ tail ∧
      tailChildrenBounded (logSize log) tail ∧
      ∀ pg, TreeLogRec.page pg ∈ tail →
        ∀ cid ∈ pageChildIDs pg, isMemPage cid = false := by
  obtain ⟨tail, hlog, hroot, hbnd, hdelta⟩ :=
    flushTreeLogF_ok fuel pid wb log res wb' log' hrun hwf
  refine ⟨tail, hlog, hbnd, ?_⟩
  intro pg hpg cid hcid
  have hle := tailChildrenBounded_mem hbnd hpg cid hcid
  have hlt : cid < memBit := by
    rw [hlog, logSize_append] at hsz
    omega
  simp only [isMemPage, decide_eq_false_iff_not]
  omega

/-- A write buffer holding a two-leaf tree under an inner root with two
child slots; the concrete input of the C4 counterexample and witness. -/
def c4wb : List Page :=
  [Page.leaf [Entry.mk [97] [49] 1 OffsetNone 0] false false,
   Page.leaf [Entry.mk [98] [50] 2 OffsetNone 0] false false,
   Page.inner [InnerSlot.mk [] memBit, InnerSlot.mk [98] (memBit + 1)] []
     true false]

/-- The in-memory id of the root of `c4wb`. -/
def c4RootID : Nat := memBit + 2

/-- The result record of flushing `c4wb`. -/
def c4res : FlushRes :=
  { pagesFlushed := 3, bytesWritten := 3 * PageSize,
    rootID := 3 * PageSize, stalePages := 0 }

/-- The write buffer after flushing `c4wb`: both child slots rewritten to
the persistent ids `PageSize` and `2 * PageSize`. -/
def c4wbAfter : List Page :=
  [Page.leaf [Entry.mk [97] [49] 1 OffsetNone 0] false false,
   Page.leaf [Entry.mk [98] [50] 2 OffsetNone 0] false false,
   Page.inner [InnerSlot.mk [] PageSize, InnerSlot.mk [98] (2 * PageSize)]
     [] true false]

/-- The image of the inner root as appended to the tree log. -/
def c4InnerImage : Page :=
  Page.inner [InnerSlot.mk [] PageSize, InnerSlot.mk [98] (2 * PageSize)]
    [] true false

/-- The tree log written by flushing `c4wb`: the two leaves in post-order
followed by the root. -/
def c4log : List TreeLogRec :=
  [TreeLogRec.page (Page.leaf [Entry.mk [97] [49] 1 OffsetNone 0] false
      false),
   TreeLogRec.page (Page.leaf [Entry.mk [98] [50] 2 OffsetNone 0] false
      false),
   TreeLogRec.page c4InnerImage]

/-- The page-header entry-count field (`pg.NumEntries`); on inner pages it
counts the child slots (see the module note on the inner-page layout). -/
def pageNumEntries : Page → Nat
  | .leaf es _ _ => es.length
  | .inner slots _ _ _ => slots.length
  | .hist es _ => es.length

/-- Number of child slots of an inner page image. -/
def innerChildSlotCount : Page → Nat
  | .inner slots _ _ _ => slots.length
  | _ => 0

/-- C4 counterexample: flushing the two-leaf tree of `c4wb` appends an
inner page whose number of child slots equals its `NumEntries` field (both
are 2, the left-most child being slot 0), not `NumEntries + 1` as the
claim states. -/
theorem flushTreeLog_child_slot_count_counterexample :
    flushTreeLogF 3 c4RootID false c4wb [] =
      .ok (c4res, c4wbAfter, c4log) ∧
    TreeLogRec.page c4InnerImage ∈ c4log ∧
    innerChildSlotCount c4InnerImage = pageNumEntries c4InnerImage ∧
    pageNumEntries c4InnerImage = 2 ∧
    ¬ innerChildSlotCount c4InnerImage = pageNumEntries c4InnerImage + 1 :=
  ⟨by rfl, by decide, by decide, by decide, by decide⟩

/-- Witness for `flushTreeLog_rewrites_all_child_slots` on the concrete
flush of `c4wb`. -/
theorem flushTreeLog_rewrites_all_child_slots_witness :
    ∃ tail, c4log = [] ++ tail ∧
      tailChildrenBounded (logSize []) tail ∧
      ∀ pg, TreeLogRec.page pg ∈ tail →
        ∀ cid ∈ pageChildIDs pg, isMemPage cid = false :=
  flushTreeLog_rewrites_all_child_slots 3 c4RootID c4wb [] c4res c4wbAfter
    c4log (by rfl) (by decide) (by decide)
end TBTree
